import Mathlib

/-!
# A shallow embedding of the twine binary codec

This file embeds the core of the `twine-data` Rust crate in Lean 4:

* the LEB128 codec (`ser.rs::enc_leb128`, `deser.rs::Decoder::leb128`),
* the streaming encoder (`ser.rs::Encoder`),
* the shallow decoder (`deser.rs::Decoder`),
* the deep value reader/writer (`value.rs::read_value`, `write_value`).

Modelling conventions:

* Machine integers (`u64` offsets, `u8` bytes) are `Nat`; `i64` is `Int`.
  Wrapping/truncating casts are written with explicit `% 2 ^ w`.  The model
  follows release-mode Rust semantics (casts truncate, `debug_assert!` is
  compiled out).
* A byte buffer is a `List Nat`; in any buffer produced by the encoder all
  entries are `< 256`, matching Rust's `Vec<u8>` sink.
* `f64` values are represented by their 64-bit IEEE-754 bit patterns, since
  the codec only moves their little-endian bytes (`to_le_bytes`/`from_bits`).
* Fallible decoder operations return `DRes`: `ok`, a recoverable `err`
  (the crate's `Error {msg, off}`), `panic` for Rust panics (out-of-bounds
  indexing or slicing, `unreachable!()`), and `diverge` for provable
  non-termination of the source (and as the fuel-exhaustion marker of the
  model's bounded recursion over untrusted buffers).
-/

namespace Twine

/-- `types.rs::Error`: a constant message string plus the offset at which the
problem was detected. -/
structure Error where
  msg : String
  off : Nat
  deriving Repr, DecidableEq

/-- Result of a decoder operation; see the module conventions above. -/
inductive DRes (α : Type) where
  | ok (a : α)
  | err (e : Error)
  | panic
  | diverge
  deriving Repr, DecidableEq

namespace DRes

/-- Propagate errors, panics and divergence, as Rust's `?` does. -/
def bind {α β : Type} : DRes α → (α → DRes β) → DRes β
  | .ok a, f => f a
  | .err e, _ => .err e
  | .panic, _ => .panic
  | .diverge, _ => .diverge

@[simp] theorem bind_ok {α β : Type} (a : α) (f : α → DRes β) :
    bind (.ok a) f = f a := rfl

@[simp] theorem bind_err {α β : Type} (e : Error) (f : α → DRes β) :
    bind (.err e) f = .err e := rfl

@[simp] theorem bind_panic {α β : Type} (f : α → DRes β) :
    bind (.panic : DRes α) f = .panic := rfl

@[simp] theorem bind_diverge {α β : Type} (f : α → DRes β) :
    bind (.diverge : DRes α) f = .diverge := rfl

end DRes

/-- `self.bs[off as usize]` as a partial operation: `none` models the
out-of-bounds index panic. -/
def getByte (bs : List Nat) (i : Nat) : Option Nat := bs[i]?

theorem getByte_append_left {bs ext : List Nat} {i : Nat} {c : Nat}
    (h : getByte bs i = some c) : getByte (bs ++ ext) i = some c := by
  have hi : i < bs.length := by
    by_contra hn
    simp [getByte, List.getElem?_eq_none (Nat.le_of_not_lt hn)] at h
  simpa [getByte, List.getElem?_append_left hi] using h

theorem getByte_append_right (bs ext : List Nat) (i : Nat) :
    getByte (bs ++ ext) (bs.length + i) = getByte ext i := by
  simp [getByte, List.getElem?_append_right (Nat.le_add_right bs.length i)]

/-! ## LEB128 -/

/-- `ser.rs::enc_leb128`: encode `n` as unsigned LEB128.  The loop takes
`c = n & 0x7f`; if `c == n` it emits the final byte `c`, otherwise it emits
`c | 0x80` and continues with `n >> 7`. -/
def encLeb128 (n : Nat) : List Nat :=
  if n % 128 = n then [n % 128]
  else (n % 128 + 128) :: encLeb128 (n / 128)
termination_by n
decreasing_by omega

theorem encLeb128_small {n : Nat} (h : n < 128) : encLeb128 n = [n] := by
  rw [encLeb128]
  simp [Nat.mod_eq_of_lt h]

theorem encLeb128_large {n : Nat} (h : 128 ≤ n) :
    encLeb128 n = (n % 128 + 128) :: encLeb128 (n / 128) := by
  rw [encLeb128]
  have : n % 128 ≠ n := by
    have := Nat.mod_lt n (show 0 < 128 by norm_num)
    omega
  simp [this]

theorem encLeb128_ne_nil (n : Nat) : encLeb128 n ≠ [] := by
  rw [encLeb128]
  split <;> simp

/-- Each encoded byte is a valid `u8`. -/
theorem encLeb128_lt_256 (n : Nat) : ∀ b ∈ encLeb128 n, b < 256 := by
  induction n using Nat.strong_induction_on with
  | _ n ih =>
    intro b hb
    rw [encLeb128] at hb
    by_cases h : n % 128 = n
    · rw [if_pos h] at hb
      rw [List.mem_singleton] at hb
      have := Nat.mod_lt n (show 0 < 128 by norm_num)
      omega
    · rw [if_neg h] at hb
      rcases List.mem_cons.mp hb with h1 | h1
      · have := Nat.mod_lt n (show 0 < 128 by norm_num)
        omega
      · have hn : 128 ≤ n := by
          by_contra hc
          exact h (Nat.mod_eq_of_lt (by omega))
        exact ih (n / 128) (Nat.div_lt_self (by omega) (by norm_num)) b h1

/-- A `u64` needs at most 10 LEB128 bytes: `n < 2 ^ (7 k)` encodes in `≤ k`
bytes. -/
theorem encLeb128_length_le (k : Nat) (n : Nat) (hk : 1 ≤ k)
    (h : n < 2 ^ (7 * k)) : (encLeb128 n).length ≤ k := by
  induction k generalizing n with
  | zero => omega
  | succ k ih =>
    by_cases hs : n < 128
    · rw [encLeb128_small hs]
      simp only [List.length_singleton]
      omega
    · rw [encLeb128_large (by omega)]
      have hk1 : 1 ≤ k := by
        rcases Nat.eq_or_lt_of_le hk with h1 | h1
        · exfalso
          have : 7 * 1 = 7 := by norm_num
          rw [show k + 1 = 1 by omega] at h
          norm_num at h
          omega
        · omega
      have hdiv : n / 128 < 2 ^ (7 * k) := by
        have h2 : 2 ^ (7 * (k + 1)) = 2 ^ (7 * k) * 128 := by
          rw [show 7 * (k + 1) = 7 * k + 7 by ring, pow_add]
          norm_num

        rw [Nat.div_lt_iff_lt_mul (by norm_num : (0:Nat) < 128)]
        omega
      simpa using Nat.succ_le_succ (ih (n / 128) hk1 hdiv)

/-- Bit-or of disjoint ranges is addition: used to read off the accumulator
`res | ((cur as u64) << shift)` of the LEB128 reader. -/
theorem lor_mul_pow_eq_add {a c k : Nat} (h : a < 2 ^ k) :
    a ||| (c * 2 ^ k) = c * 2 ^ k + a := by
  apply Nat.eq_of_testBit_eq
  intro i
  rw [Nat.testBit_lor, mul_comm c (2 ^ k), Nat.testBit_mul_pow_two_add _ h,
    Nat.testBit_mul_pow_two]
  by_cases hi : i < k
  · simp [hi, Nat.not_le_of_lt hi]
  · have : a.testBit i = false := Nat.testBit_eq_false_of_lt
      (lt_of_lt_of_le h (Nat.pow_le_pow_right (by norm_num) (by omega)))
    simp [this, hi, Nat.le_of_not_lt hi]

/-- The loop of `deser.rs::Decoder::leb128`.  Each byte `c` contributes its
low 7 bits at the current `shift`; a byte with the top bit clear terminates.
After `shift += 7`, reaching 64 yields the overflow error.  `cur << shift` is
a `u64` shift, hence the `% 2 ^ 64`. -/
def leb128go (bs : List Nat) (off res shift nBytes : Nat) : DRes (Nat × Nat) :=
  match getByte bs off with
  | none => .panic
  | some c =>
    if c % 128 = c then .ok (res ||| (c % 128 * 2 ^ shift % 2 ^ 64), nBytes + 1)
    else if 64 ≤ shift + 7 then .err ⟨"out of bound for LEB128", off + 1⟩
    else leb128go bs (off + 1) (res ||| (c % 128 * 2 ^ shift % 2 ^ 64))
      (shift + 7) (nBytes + 1)
termination_by 64 - shift
decreasing_by omega

/-- `deser.rs::Decoder::leb128`: read a LEB128 `u64` at `off`, returning the
value and the number of bytes consumed. -/
def leb128 (bs : List Nat) (off : Nat) : DRes (Nat × Nat) :=
  leb128go bs off 0 0 0

theorem getByte_at_length (pre : List Nat) (x : Nat) (suf : List Nat) :
    getByte (pre ++ x :: suf) pre.length = some x := by
  rw [getByte, List.getElem?_append_right (Nat.le_refl pre.length)]
  simp

/-- Generalized LEB128 round-trip: reading the encoding of `n` placed at
offset `pre.length`, from any intermediate accumulator state. -/
theorem leb128go_encLeb128 (n : Nat) : ∀ (shift res nb : Nat)
    (pre post : List Nat), shift ≤ 63 → n < 2 ^ (64 - shift) →
    res < 2 ^ shift →
    leb128go (pre ++ encLeb128 n ++ post) pre.length res shift nb
      = .ok (n * 2 ^ shift + res, nb + (encLeb128 n).length) := by
  induction n using Nat.strong_induction_on with
  | _ n ih =>
    intro shift res nb pre post hshift hn hres
    by_cases hsmall : n < 128
    · rw [encLeb128_small hsmall]
      rw [leb128go]
      have hb : getByte (pre ++ [n] ++ post) pre.length = some n := by
        simpa using getByte_at_length pre n post
      rw [hb]
      dsimp only
      have hp : 0 < 2 ^ shift := Nat.pos_pow_of_pos _ (by norm_num)
      have hmul : n * 2 ^ shift < 2 ^ 64 := by
        have h1 : n * 2 ^ shift < 2 ^ (64 - shift) * 2 ^ shift :=
          mul_lt_mul_of_pos_right hn hp
        have h2 : 2 ^ (64 - shift) * 2 ^ shift = 2 ^ 64 := by
          rw [← pow_add]; congr 1; omega
        omega
      rw [if_pos (Nat.mod_eq_of_lt hsmall)]
      rw [Nat.mod_eq_of_lt hsmall, Nat.mod_eq_of_lt hmul, lor_mul_pow_eq_add hres]
      simp
    · rw [encLeb128_large (by omega)]
      rw [leb128go]
      have hb : getByte (pre ++ ((n % 128 + 128) :: encLeb128 (n / 128)) ++ post)
          pre.length = some (n % 128 + 128) := by
        simpa using getByte_at_length pre (n % 128 + 128) (encLeb128 (n / 128) ++ post)
      rw [hb]
      dsimp only
      have hne : ¬ (n % 128 + 128) % 128 = n % 128 + 128 := by omega
      rw [if_neg hne]
      -- `n ≥ 128` and `n < 2 ^ (64 - shift)` force `shift ≤ 56`
      have hshift56 : shift ≤ 56 := by
        by_contra hc
        have h1 : 64 - shift ≤ 7 := by omega
        have : n < 2 ^ 7 := lt_of_lt_of_le hn (Nat.pow_le_pow_right (by norm_num) h1)
        norm_num at this
        omega
      rw [if_neg (show ¬ 64 ≤ shift + 7 by omega)]
      have hcur : (n % 128 + 128) % 128 = n % 128 := by omega
      simp only [hcur]
      have hp : 0 < 2 ^ shift := Nat.pos_pow_of_pos _ (by norm_num)
      have hmul : n % 128 * 2 ^ shift < 2 ^ 64 := by
        have h1 : n % 128 * 2 ^ shift < 128 * 2 ^ shift :=
          mul_lt_mul_of_pos_right (Nat.mod_lt n (by norm_num)) hp
        have h2 : (128 : Nat) * 2 ^ shift = 2 ^ (shift + 7) := by
          rw [pow_add]; ring
        have h3 : 2 ^ (shift + 7) ≤ 2 ^ 64 := Nat.pow_le_pow_right (by norm_num) (by omega)
        omega
      rw [Nat.mod_eq_of_lt hmul, lor_mul_pow_eq_add hres]
      have hlist : pre ++ ((n % 128 + 128) :: encLeb128 (n / 128)) ++ post
          = (pre ++ [n % 128 + 128]) ++ encLeb128 (n / 128) ++ post := by
        simp
      have hlen : pre.length + 1 = (pre ++ [n % 128 + 128]).length := by simp
      rw [hlist, hlen]
      have hdiv : n / 128 < 2 ^ (64 - (shift + 7)) := by
        have h1 : 2 ^ (64 - shift) = 2 ^ (64 - (shift + 7)) * 128 := by
          rw [show (128 : Nat) = 2 ^ 7 by norm_num, ← pow_add]
          congr 1
          omega
        rw [Nat.div_lt_iff_lt_mul (by norm_num : (0:Nat) < 128)]
        omega
      have hres1 : n % 128 * 2 ^ shift + res < 2 ^ (shift + 7) := by
        have h1 : n % 128 * 2 ^ shift ≤ 127 * 2 ^ shift :=
          Nat.mul_le_mul_right _ (by omega)
        have h2 : (127 : Nat) * 2 ^ shift + 2 ^ shift = 2 ^ (shift + 7) := by
          rw [pow_add]; ring
        omega
      rw [ih (n / 128) (Nat.div_lt_self (by omega) (by norm_num))
        (shift + 7) (n % 128 * 2 ^ shift + res) (nb + 1)
        (pre ++ [n % 128 + 128]) post (by omega) hdiv hres1]
      have harith : n / 128 * 2 ^ (shift + 7) + (n % 128 * 2 ^ shift + res)
          = n * 2 ^ shift + res := by
        have : n / 128 * 2 ^ (shift + 7) + n % 128 * 2 ^ shift
            = (n / 128 * 128 + n % 128) * 2 ^ shift := by
          rw [pow_add]; ring
        have h4 : n / 128 * 128 + n % 128 = n := by omega
        rw [← Nat.add_assoc, this, h4]
      rw [harith]
      simp only [List.length_cons]
      have hfin : nb + 1 + (encLeb128 (n / 128)).length
          = nb + ((encLeb128 (n / 128)).length + 1) := by omega
      rw [hfin]

/-- Top-level LEB128 round-trip over any continuation of the buffer. -/
theorem leb128_encLeb128 (n : Nat) (h : n < 2 ^ 64) (post : List Nat) :
    leb128 (encLeb128 n ++ post) 0 = .ok (n, (encLeb128 n).length) := by
  have := leb128go_encLeb128 n 0 0 0 [] post (by omega) (by simpa using h)
    (by norm_num)
  simpa [leb128] using this

/-- Does a decoder result lie on the recoverable-error channel? -/
def DRes.isErr {α : Type} : DRes α → Bool
  | .err _ => true
  | _ => false

theorem DRes.isErr_iff {α : Type} (x : DRes α) :
    x.isErr = true ↔ ∃ e, x = .err e := by
  cases x <;> simp [DRes.isErr]

/-- The LEB128 reader overflows (shift reaches 64) exactly when, from shift
state `s`, the next `(63 - s) / 7 + 1` bytes all exist and all carry the
continuation bit. -/
theorem leb128go_err_iff (bs : List Nat) : ∀ (fuel shift off res nb : Nat),
    64 - shift = fuel → shift ≤ 63 →
    ((leb128go bs off res shift nb).isErr = true ↔
      ∀ i < (63 - shift) / 7 + 1,
        ∃ b, getByte bs (off + i) = some b ∧ ¬ b % 128 = b) := by
  intro fuel
  induction fuel using Nat.strong_induction_on with
  | _ fuel ih =>
    intro shift off res nb hfuel hshift
    rw [leb128go]
    cases hB : getByte bs off with
    | none =>
      dsimp only
      simp only [DRes.isErr]
      constructor
      · intro h
        exact absurd h (by simp)
      · intro h
        rcases h 0 (by omega) with ⟨b, hb, _⟩
        rw [Nat.add_zero] at hb
        rw [hB] at hb
        exact absurd hb (by simp)
    | some c =>
      dsimp only
      by_cases hterm : c % 128 = c
      · rw [if_pos hterm]
        simp only [DRes.isErr]
        constructor
        · intro h
          exact absurd h (by simp)
        · intro h
          rcases h 0 (by omega) with ⟨b, hb, hbc⟩
          rw [Nat.add_zero, hB] at hb
          cases hb
          exact absurd hterm hbc
      · rw [if_neg hterm]
        by_cases hover : 64 ≤ shift + 7
        · rw [if_pos hover]
          simp only [DRes.isErr]
          have hd : (63 - shift) / 7 + 1 = 1 := by omega
          rw [hd]
          constructor
          · intro _ i hi
            have : i = 0 := by omega
            subst this
            exact ⟨c, by simpa using hB, hterm⟩
          · intro _
            trivial
        · rw [if_neg hover]
          have hrec := ih (64 - (shift + 7)) (by omega) (shift + 7) (off + 1)
            (res ||| c % 128 * 2 ^ shift % 2 ^ 64) (nb + 1) rfl (by omega)
          rw [hrec]
          have hd : (63 - shift) / 7 + 1 = ((63 - (shift + 7)) / 7 + 1) + 1 := by
            omega
          rw [hd]
          constructor
          · intro h i hi
            cases i with
            | zero => exact ⟨c, by simpa using hB, hterm⟩
            | succ j =>
              rcases h j (by omega) with ⟨b, hb, hbc⟩
              refine ⟨b, ?_, hbc⟩
              rw [show off + (j + 1) = off + 1 + j by omega]
              exact hb
          · intro h j hj
            rcases h (j + 1) (by omega) with ⟨b, hb, hbc⟩
            refine ⟨b, ?_, hbc⟩
            rw [show off + 1 + j = off + (j + 1) by omega]
            exact hb

/-! ## Decoder primitives -/

/-- `Decoder::new`: refuses buffers longer than `u32::MAX` bytes. -/
def decoderNew (bs : List Nat) : DRes Unit :=
  if 2 ^ 32 - 1 < bs.length then .err ⟨"byte buffer is too long", 0⟩ else .ok ()

/-- `Decoder::first_byte`: split the byte at `off` into `(high, low)` nibbles
(`c >> 4`, `c & 0xf`).  The Rust indexing panics when out of bounds. -/
def firstByteD (bs : List Nat) (off : Nat) : DRes (Nat × Nat) :=
  match getByte bs off with
  | none => .panic
  | some c => .ok (c / 16, c % 16)

/-- `Decoder::u64_with_low`: `low < 15` is the payload itself; `low = 15` is
followed by LEB128 and the logical value is `15 + decoded`.  `rest + 15` is a
`u64` addition (wraps in release mode), hence the `% 2 ^ 64`. -/
def u64WithLow (bs : List Nat) (off : Nat) (low : Nat) : DRes (Nat × Nat) :=
  if low < 15 then .ok (low, 0)
  else DRes.bind (leb128 bs (off + 1)) fun rc => .ok ((rc.1 + 15) % 2 ^ 64, rc.2)

/-- `Decoder::deref`: follow `Pointer` (high nibble 15) entries until the
first non-pointer offset.  `off.checked_sub(p as Offset + 1)` turns underflow
into the "pointer underflow" error, but the increment `p + 1` itself is a
plain `u64` addition: for `p = 2 ^ 64 - 1` it wraps to zero in release
builds, the subtraction succeeds without moving `off`, and the source loops
forever — modelled by `.diverge` (debug builds panic on the overflow). -/
def deref (bs : List Nat) (off : Nat) : DRes Nat :=
  match getByte bs off with
  | none => .panic
  | some c =>
    if c / 16 = 15 then
      match u64WithLow bs off (c % 16) with
      | .ok pc =>
        if hz : (pc.1 + 1) % 2 ^ 64 = 0 then .diverge
        else if hle : (pc.1 + 1) % 2 ^ 64 ≤ off then
          deref bs (off - (pc.1 + 1) % 2 ^ 64)
        else .err ⟨"pointer underflow", off⟩
      | .err e => .err e
      | .panic => .panic
      | .diverge => .diverge
    else .ok off
termination_by off
decreasing_by omega

/-- `Decoder::skip`: the end offset of an immediate value.  Composite values
(array/map/tag, constructors with arguments) and the reserved nibbles are
errors. -/
def skip (bs : List Nat) (off : Nat) : DRes Nat :=
  match getByte bs off with
  | none => .panic
  | some c =>
    if c / 16 = 0 then .ok (off + 1)
    else if c / 16 = 1 ∨ c / 16 = 2 then
      DRes.bind (u64WithLow bs off (c % 16)) fun xn => .ok (off + 1 + xn.2)
    else if c / 16 = 3 then
      if c % 16 = 0 then .ok (off + 5) else .ok (off + 9)
    else if c / 16 = 4 ∨ c / 16 = 5 then
      DRes.bind (u64WithLow bs off (c % 16)) fun ln =>
        if 2 ^ 32 - 1 < ln.1 then .err ⟨"length overflow", off⟩
        else .ok (off + 1 + ln.2 + ln.1)
    else if c / 16 = 6 ∨ c / 16 = 7 ∨ c / 16 = 8 then
      .err ⟨"cannot skip over array/dict/tag", off⟩
    else if c / 16 = 9 ∨ c / 16 = 13 then
      .err ⟨"tag is reserved", off⟩
    else if c / 16 = 10 then
      DRes.bind (u64WithLow bs off (c % 16)) fun xn => .ok (off + 1 + xn.2)
    else if c / 16 = 11 ∨ c / 16 = 12 then
      .err ⟨"cannot skip over constructor", off⟩
    else if c / 16 = 14 ∨ c / 16 = 15 then
      DRes.bind (u64WithLow bs off (c % 16)) fun xn => .ok (off + 1 + xn.2)
    else .panic

/-- Little-endian bytes of the low `k` bytes of `v`
(`to_le_bytes` on the writer side). -/
def natToLeBytes : Nat → Nat → List Nat
  | 0, _ => []
  | k + 1, v => v % 256 :: natToLeBytes k (v / 256)

/-- `from_le_bytes`: recompose a `Nat` from little-endian bytes. -/
def leBytesToNat : List Nat → Nat
  | [] => 0
  | b :: rest => b + 256 * leBytesToNat rest

/-- `&bs[a..b]` as a partial operation; `none` is the out-of-range slice
panic. -/
def listSlice (bs : List Nat) (a b : Nat) : Option (List Nat) :=
  if a ≤ b ∧ b ≤ bs.length then some ((bs.drop a).take (b - a)) else none

/-- Continuation byte (`0x80..=0xBF`). -/
def isCont (b : Nat) : Bool := decide (0x80 ≤ b ∧ b ≤ 0xBF)

/-- Models the validity check of `std::str::from_utf8` (RFC 3629 byte-range
table).  Only its two-valuedness matters to the theorems below: the encoder
writes the bytes of a Rust `&str`, which satisfy it by the `str` type
invariant, and the decoder re-checks the very same bytes. -/
def utf8Valid : List Nat → Bool
  | [] => true
  | c :: rest =>
    if c ≤ 0x7F then utf8Valid rest
    else
      match rest with
      | [] => false
      | c1 :: rest1 =>
        if 0xC2 ≤ c ∧ c ≤ 0xDF ∧ isCont c1 then utf8Valid rest1
        else
          match rest1 with
          | [] => false
          | c2 :: rest2 =>
            if (c = 0xE0 ∧ 0xA0 ≤ c1 ∧ c1 ≤ 0xBF ∧ isCont c2)
                ∨ (0xE1 ≤ c ∧ c ≤ 0xEC ∧ isCont c1 ∧ isCont c2)
                ∨ (c = 0xED ∧ 0x80 ≤ c1 ∧ c1 ≤ 0x9F ∧ isCont c2)
                ∨ (0xEE ≤ c ∧ c ≤ 0xEF ∧ isCont c1 ∧ isCont c2) then
              utf8Valid rest2
            else
              match rest2 with
              | [] => false
              | c3 :: rest3 =>
                if (c = 0xF0 ∧ 0x90 ≤ c1 ∧ c1 ≤ 0xBF ∧ isCont c2 ∧ isCont c3)
                    ∨ (0xF1 ≤ c ∧ c ≤ 0xF3 ∧ isCont c1 ∧ isCont c2 ∧ isCont c3)
                    ∨ (c = 0xF4 ∧ 0x80 ≤ c1 ∧ c1 ≤ 0x8F ∧ isCont c2 ∧ isCont c3)
                  then utf8Valid rest3
                else false

/-- `types.rs::Immediate` (the crate also calls the zero-argument variant
`Variant0` in one revision and `Cstor0` in the one the encoder uses; they
are the same constructor).  `string`/`bytes` hold the viewed bytes, `float`
the 64-bit IEEE-754 pattern, `int64` a mathematical integer in i64 range. -/
inductive Immediate where
  | null
  | bool (b : Bool)
  | int64 (i : Int)
  | float (bits : Nat)
  | string (s : List Nat)
  | bytes (b : List Nat)
  | cstor0 (c : Nat)
  | ref (p : Nat)
  | pointer (p : Nat)
  deriving Repr, DecidableEq

/-- `shallow_value.rs::ArrayCursor` (file not in the sources; the fields
`off` and `n_items` are fixed by its construction sites in `deser.rs`, and
the Rust struct additionally carries a clone of the decoder over the same
byte slice, which the model passes explicitly). -/
structure ArrayCursor where
  off : Nat
  nItems : Nat
  deriving Repr, DecidableEq

/-- `shallow_value.rs::MapCursor`; see `ArrayCursor`. -/
structure MapCursor where
  off : Nat
  nItems : Nat
  deriving Repr, DecidableEq

/-- `shallow_value.rs::ShallowValue`: one layer of structure, per the spec's
data model (`Imm`, `Tag`, `Array`, `Map`, `Cstor`) and the construction
sites in `deser.rs::get_shallow_value`. -/
inductive ShallowValue where
  | imm (v : Immediate)
  | tag (t : Nat) (off : Nat)
  | array (c : ArrayCursor)
  | map (c : MapCursor)
  | cstor (idx : Nat) (args : ArrayCursor)
  deriving Repr, DecidableEq

/-- `Decoder::i64_pos`. -/
def i64Pos (bs : List Nat) (off low : Nat) : DRes Int :=
  DRes.bind (u64WithLow bs off low) fun xn =>
    if 2 ^ 63 - 1 < xn.1 then .err ⟨"i64 overflow", off⟩ else .ok (xn.1 : Int)

/-- `Decoder::i64_neg`. -/
def i64Neg (bs : List Nat) (off low : Nat) : DRes Int :=
  DRes.bind (u64WithLow bs off low) fun xn =>
    if 2 ^ 63 - 1 < xn.1 then .err ⟨"i64 overflow", off⟩
    else .ok (-(xn.1 : Int) - 1)

/-- `Decoder::str`: length header, then the viewed bytes, checked for UTF-8
validity (`from_utf8`'s error is reported as "overflow in string"). -/
def strD (bs : List Nat) (off low : Nat) : DRes (List Nat) :=
  DRes.bind (u64WithLow bs off low) fun ln =>
    match listSlice bs (off + 1 + ln.2) (off + 1 + ln.2 + ln.1) with
    | none => .panic
    | some s =>
      if utf8Valid s then .ok s else .err ⟨"overflow in string", off + 1 + ln.2⟩

/-- `Decoder::bytes`. -/
def bytesD (bs : List Nat) (off low : Nat) : DRes (List Nat) :=
  DRes.bind (u64WithLow bs off low) fun ln =>
    match listSlice bs (off + 1 + ln.2) (off + 1 + ln.2 + ln.1) with
    | none => .panic
    | some s => .ok s

/-- The exact IEEE-754 widening `f32 → f64` (`f as f64`), on bit patterns:
sign preserved, exponent re-biased from 127 to 1023, mantissa shifted to 52
bits; subnormals are normalized; NaN payloads keep their high bits (the
hardware convention; Rust leaves the payload of a casted NaN unspecified). -/
def f32BitsToF64Bits (w : Nat) : Nat :=
  let u := w % 2 ^ 32
  let sign := u / 2 ^ 31
  let ex := u / 2 ^ 23 % 2 ^ 8
  let frac := u % 2 ^ 23
  if ex = 255 then sign * 2 ^ 63 + 2047 * 2 ^ 52 + frac * 2 ^ 29
  else if ex ≠ 0 then sign * 2 ^ 63 + (ex + 896) * 2 ^ 52 + frac * 2 ^ 29
  else if frac = 0 then sign * 2 ^ 63
  else
    let k := Nat.log2 frac
    sign * 2 ^ 63 + (k + 874) * 2 ^ 52 + (frac - 2 ^ k) * 2 ^ (52 - k)

/-- `Decoder::float`: `low = 0` reads 4 little-endian bytes (an `f32`,
widened to `f64`), `low = 1` reads 8; other lows are errors.  The result is
the `f64` bit pattern. -/
def floatD (bs : List Nat) (off low : Nat) : DRes Nat :=
  if low = 0 then
    match listSlice bs (off + 1) (off + 1 + 4) with
    | none => .panic
    | some arr => .ok (f32BitsToF64Bits (leBytesToNat arr))
  else if low = 1 then
    match listSlice bs (off + 1) (off + 1 + 8) with
    | none => .panic
    | some arr => .ok (leBytesToNat arr)
  else .err ⟨"expected float", off⟩

/-- `Decoder::tag`: tag number (checked against `u32::MAX`) and the offset
of the immediate that follows. -/
def tagD (bs : List Nat) (off low : Nat) : DRes (Nat × Nat) :=
  DRes.bind (u64WithLow bs off low) fun tn =>
    if 2 ^ 32 - 1 < tn.1 then .err ⟨"tag overflow", off⟩
    else .ok (tn.1, off + 1 + tn.2)

/-- `Decoder::array_cursor`. -/
def arrayCursorD (bs : List Nat) (off low : Nat) : DRes ArrayCursor :=
  DRes.bind (u64WithLow bs off low) fun ln =>
    if 2 ^ 32 - 1 < ln.1 then .err ⟨"Size overflow for array", off⟩
    else .ok ⟨off + 1 + ln.2, ln.1⟩

/-- `Decoder::map_cursor`. -/
def mapCursorD (bs : List Nat) (off low : Nat) : DRes MapCursor :=
  DRes.bind (u64WithLow bs off low) fun ln =>
    if 2 ^ 32 - 1 < ln.1 then .err ⟨"Size overflow for dict", off⟩
    else .ok ⟨off + 1 + ln.2, ln.1⟩

/-- `Decoder::cstor`: high 10 (0 args), 11 (1 arg), 12 (index, then LEB128
argument count).  The `u32::MAX` check on the index (`mk_cstor!`) runs when
the result is assembled, i.e. for high 12 after the argument count was read
successfully. -/
def cstorD (bs : List Nat) (off high low : Nat) : DRes (Nat × ArrayCursor) :=
  if high = 10 then
    DRes.bind (u64WithLow bs off low) fun xn =>
      if 2 ^ 32 - 1 < xn.1 then .err ⟨"cstor overflow", off⟩
      else .ok (xn.1, ⟨off, 0⟩)
  else if high = 11 then
    DRes.bind (u64WithLow bs off low) fun xn =>
      if 2 ^ 32 - 1 < xn.1 then .err ⟨"cstor overflow", off⟩
      else .ok (xn.1, ⟨off + 1 + xn.2, 1⟩)
  else if high = 12 then
    DRes.bind (u64WithLow bs off low) fun xn =>
      DRes.bind (leb128 bs (off + 1 + xn.2)) fun mn =>
        if 2 ^ 32 - 1 < mn.1 then
          .err ⟨"overflow in cstor arguments", off + 1 + xn.2⟩
        else if 2 ^ 32 - 1 < xn.1 then
          .err ⟨"cstor overflow", off + 1 + xn.2 + mn.2⟩
        else .ok (xn.1, ⟨off + 1 + xn.2 + mn.2, mn.1⟩)
  else .err ⟨"expected cstor", off⟩

/-- `Decoder::get_shallow_value`: dereference, then decode one layer by high
nibble.  High 15 after `deref` is the source's `unreachable!()`; 9, 13 and
(for buffers of valid bytes, impossible) `≥ 16` fall to "invalid value". -/
def getShallowValue (bs : List Nat) (off0 : Nat) : DRes ShallowValue :=
  DRes.bind (deref bs off0) fun off =>
  match getByte bs off with
  | none => .panic
  | some c =>
    if c / 16 = 0 then
      if c % 16 = 2 then .ok (.imm .null)
      else if c % 16 = 0 then .ok (.imm (.bool false))
      else if c % 16 = 1 then .ok (.imm (.bool true))
      else .err ⟨"invalid value with high=0", off⟩
    else if c / 16 = 1 then
      DRes.bind (i64Pos bs off (c % 16)) fun i => .ok (.imm (.int64 i))
    else if c / 16 = 2 then
      DRes.bind (i64Neg bs off (c % 16)) fun i => .ok (.imm (.int64 i))
    else if c / 16 = 3 then
      DRes.bind (floatD bs off (c % 16)) fun f => .ok (.imm (.float f))
    else if c / 16 = 4 then
      DRes.bind (strD bs off (c % 16)) fun s => .ok (.imm (.string s))
    else if c / 16 = 5 then
      DRes.bind (bytesD bs off (c % 16)) fun s => .ok (.imm (.bytes s))
    else if c / 16 = 6 then
      DRes.bind (arrayCursorD bs off (c % 16)) fun a => .ok (.array a)
    else if c / 16 = 7 then
      DRes.bind (mapCursorD bs off (c % 16)) fun m => .ok (.map m)
    else if c / 16 = 8 then
      DRes.bind (tagD bs off (c % 16)) fun t => .ok (.tag t.1 t.2)
    else if c / 16 = 10 ∨ c / 16 = 11 ∨ c / 16 = 12 then
      DRes.bind (cstorD bs off (c / 16) (c % 16)) fun ca => .ok (.cstor ca.1 ca.2)
    else if c / 16 = 14 then
      DRes.bind (u64WithLow bs off (c % 16)) fun pn =>
        if (pn.1 + 1) % 2 ^ 64 ≤ off then
          .ok (.imm (.ref (off - (pn.1 + 1) % 2 ^ 64)))
        else .err ⟨"ref underflow", off⟩
    else if c / 16 = 15 then .panic
    else .err ⟨"invalid value", off⟩

/-- `Decoder::entrypoint`: read the postfix byte `d`, start at
`len - 1 - d - 1` and dereference.  On an empty buffer `len - 1` underflows
(debug panic; in release the wrapped index is far out of bounds and the
indexing panics), and likewise when `d + 1` exceeds `len - 1`. -/
def entrypoint (bs : List Nat) : DRes Nat :=
  if bs.length = 0 then .panic
  else
    match getByte bs (bs.length - 1) with
    | none => .panic
    | some d =>
      if d + 1 ≤ bs.length - 1 then deref bs (bs.length - 1 - d - 1)
      else .panic

/-! ## Encoder -/

/-- `ser.rs::Encoder` over a `Vec<u8>` sink: the bytes written so far and the
separately tracked `offset` counter. -/
structure EncSt where
  w : List Nat
  offset : Nat
  deriving Repr, DecidableEq

/-- `Encoder::first_byte`: write `(high << 4) | low` (one byte, `low < 16`
at every call site, so this is `16 * high + low`), return the offset at
which it was written. -/
def firstByteE (enc : EncSt) (high low : Nat) : EncSt × Nat :=
  (⟨enc.w ++ [16 * high + low], enc.offset + 1⟩, enc.offset)

/-- `Encoder::first_byte_and_u64`: `n < 15` goes into the low nibble;
otherwise low is 15 and `enc_leb128 (n - 15)` follows. -/
def firstByteAndU64 (enc : EncSt) (high n : Nat) : EncSt × Nat :=
  if n < 15 then firstByteE enc high n
  else
    let payload := (16 * high + 15) :: encLeb128 (n - 15)
    (⟨enc.w ++ payload, enc.offset + payload.length⟩, enc.offset)

/-- `Encoder::write_null` (`first_byte(0, 2)`). -/
def writeNull (enc : EncSt) : EncSt × Nat := firstByteE enc 0 2

/-- `Encoder::write_bool` (`first_byte(0, b as u8)`). -/
def writeBool (enc : EncSt) (b : Bool) : EncSt × Nat :=
  firstByteE enc 0 (if b then 1 else 0)

/-- `Encoder::write_i64`: negative `n` is stored as high 2 with payload
`(-n) - 1`, non-negative as high 1 (release-mode wrapping makes this the
mathematical value also for `i64::MIN`). -/
def writeI64 (enc : EncSt) (n : Int) : EncSt × Nat :=
  if n < 0 then firstByteAndU64 enc 2 (-n - 1).toNat
  else firstByteAndU64 enc 1 n.toNat

/-- `Encoder::write_ref`: high 14 with delta `offset - p - 1`.  The source
`debug_assert!(off > p)`; callers only pass previously returned offsets, so
the `Nat` truncated subtraction agrees with the `u64` one. -/
def writeRef (enc : EncSt) (p : Nat) : EncSt × Nat :=
  firstByteAndU64 enc 14 (enc.offset - p - 1)

/-- `Encoder::write_pointer`: high 15 with delta `offset - p - 1`. -/
def writePointer (enc : EncSt) (p : Nat) : EncSt × Nat :=
  firstByteAndU64 enc 15 (enc.offset - p - 1)

/-- `Encoder::write_f32`: header `(3, 0)` then 4 little-endian bytes of the
`f32` bit pattern. -/
def writeF32 (enc : EncSt) (bits32 : Nat) : EncSt × Nat :=
  let r := firstByteE enc 3 0
  (⟨r.1.w ++ natToLeBytes 4 bits32, r.1.offset + 4⟩, r.2)

/-- `Encoder::write_f64`: header `(3, 1)` then 8 little-endian bytes of the
`f64` bit pattern. -/
def writeF64 (enc : EncSt) (bits : Nat) : EncSt × Nat :=
  let r := firstByteE enc 3 1
  (⟨r.1.w ++ natToLeBytes 8 bits, r.1.offset + 8⟩, r.2)

/-- `Encoder::write_string`: header `(4, len)` then the UTF-8 bytes. -/
def writeString (enc : EncSt) (s : List Nat) : EncSt × Nat :=
  let r := firstByteAndU64 enc 4 s.length
  (⟨r.1.w ++ s, r.1.offset + s.length⟩, r.2)

/-- `Encoder::write_bytes`: header `(5, len)` then the raw bytes. -/
def writeBytes (enc : EncSt) (b : List Nat) : EncSt × Nat :=
  let r := firstByteAndU64 enc 5 b.length
  (⟨r.1.w ++ b, r.1.offset + b.length⟩, r.2)

/-- `Encoder::write_cstor0`: header `(10, c)`. -/
def writeCstor0 (enc : EncSt) (c : Nat) : EncSt × Nat :=
  firstByteAndU64 enc 10 c

/-- `Encoder::write_immediate`. -/
def writeImmediate (enc : EncSt) (imm : Immediate) : EncSt × Nat :=
  match imm with
  | .null => writeNull enc
  | .bool b => writeBool enc b
  | .int64 i => writeI64 enc i
  | .float f => writeF64 enc f
  | .string s => writeString enc s
  | .bytes b => writeBytes enc b
  | .cstor0 c => writeCstor0 enc c
  | .ref p => writeRef enc p
  | .pointer p => writePointer enc p

/-- `Encoder::write_immediate_or_return_pointer`: an `Immediate::Pointer`
is returned as-is without writing anything. -/
def writeImmediateOrReturnPointer (enc : EncSt) (imm : Immediate) :
    EncSt × Nat :=
  match imm with
  | .pointer p => (enc, p)
  | _ => writeImmediate enc imm

/-- `Encoder::write_tag`: header `(8, tag)` then one immediate. -/
def writeTag (enc : EncSt) (tag : Nat) (v : Immediate) : EncSt × Nat :=
  let r := firstByteAndU64 enc 8 tag
  ((writeImmediate r.1 v).1, r.2)

/-- Write a list of immediates in sequence (the loop bodies of
`write_array` / `write_map` / `write_cstor`). -/
def writeImms (enc : EncSt) : List Immediate → EncSt
  | [] => enc
  | v :: rest => writeImms (writeImmediate enc v).1 rest

/-- `Encoder::write_array`: header `(6, len)` then the immediates. -/
def writeArray (enc : EncSt) (arr : List Immediate) : EncSt × Nat :=
  let r := firstByteAndU64 enc 6 arr.length
  (writeImms r.1 arr, r.2)

/-- Key/value pairs flattened in order, as `write_map`'s loop writes them. -/
def flattenKVs : List (Immediate × Immediate) → List Immediate
  | [] => []
  | (k, v) :: rest => k :: v :: flattenKVs rest

/-- `Encoder::write_map`: header `(7, len)` then each key and value. -/
def writeMap (enc : EncSt) (map : List (Immediate × Immediate)) :
    EncSt × Nat :=
  let r := firstByteAndU64 enc 7 map.length
  (writeImms r.1 (flattenKVs map), r.2)

/-- `Encoder::write_cstor`: 0 arguments returns `Immediate::Cstor0` without
writing; 1 argument is high 11; `n ≥ 2` arguments are high 12 followed by a
raw LEB128 count, and the result is a `Pointer` to the header. -/
def writeCstor (enc : EncSt) (c : Nat) (args : List Immediate) :
    EncSt × Immediate :=
  match args with
  | [] => (enc, .cstor0 c)
  | [a] =>
    let r := firstByteAndU64 enc 11 c
    ((writeImmediate r.1 a).1, .pointer r.2)
  | _ =>
    let r := firstByteAndU64 enc 12 c
    let lenBytes := encLeb128 args.length
    let enc2 : EncSt := ⟨r.1.w ++ lenBytes, r.1.offset + lenBytes.length⟩
    (writeImms enc2 args, .pointer r.2)

/-- `Encoder::finalize`: materialize the entrypoint, compute
`delta = offset - e - 1`; when `delta > 250` first write an explicit pointer
to `e` and recompute against it; append the single postfix byte
(`delta as u8`, hence `% 256`). -/
def finalize (enc : EncSt) (entry : Immediate) : EncSt :=
  let r := writeImmediateOrReturnPointer enc entry
  let delta := r.1.offset - r.2 - 1
  if 250 < delta then
    let r2 := writePointer r.1 r.2
    let delta2 := r2.1.offset - r2.2 - 1
    ⟨r2.1.w ++ [delta2 % 256], r2.1.offset + 1⟩
  else ⟨r.1.w ++ [delta % 256], r.1.offset + 1⟩

/-! ## Deep values (`value.rs`) -/

/-- `value.rs::Value`.  The revision in the sources has `Pointer` and
`Cstor0`; the revision that the crate's own `test_ref` test (in `ser.rs`)
and the spec's data model use also has `Ref` — an explicit reference
surfaced as data — which is included here, modelled from the spec. -/
inductive Value where
  | null
  | bool (b : Bool)
  | int64 (i : Int)
  | float (bits : Nat)
  | string (s : List Nat)
  | bytes (b : List Nat)
  | cstor0 (c : Nat)
  | ref (p : Nat)
  | pointer (p : Nat)
  | tag (t : Nat) (v : Value)
  | array (vs : List Value)
  | map (kvs : List (Value × Value))
  | cstor (c : Nat) (args : List Value)
  deriving Repr

/-- `value.rs`: `From<Immediate> for Value`.  The sources' revision covers
every case except `Ref`, which is modelled from the spec
("`Imm(Ref(o))` is preserved as `Value::Ref(o)`"). -/
def immToValue : Immediate → Value
  | .null => .null
  | .bool b => .bool b
  | .int64 i => .int64 i
  | .float f => .float f
  | .string s => .string s
  | .bytes b => .bytes b
  | .cstor0 c => .cstor0 c
  | .ref p => .ref p
  | .pointer p => .pointer p

mutual

/-- `value.rs::read_value`, with a fuel parameter bounding the recursion
(the Rust recursion is unbounded and can loop on crafted buffers; the
theorems below always supply sufficient fuel).  Fuel exhaustion is the
`.diverge` marker. -/
def readValue (bs : List Nat) : Nat → Nat → DRes Value
  | 0, _ => .diverge
  | fuel + 1, off =>
    DRes.bind (getShallowValue bs off) fun sv =>
      match sv with
      | .imm v => .ok (immToValue v)
      | .tag t off1 =>
        DRes.bind (readValue bs fuel off1) fun v => .ok (.tag t v)
      | .array cur =>
        DRes.bind (readArrayItems bs fuel cur.off cur.nItems) fun vs =>
          .ok (.array vs)
      | .map cur =>
        DRes.bind (readMapItems bs fuel cur.off cur.nItems) fun kvs =>
          .ok (.map kvs)
      | .cstor idx cur =>
        DRes.bind (readArrayItems bs fuel cur.off cur.nItems) fun vs =>
          .ok (.cstor idx vs)
termination_by fuel _ => (fuel, 0)

/-- The array/constructor-args cursor loop of `read_value`: each of the
`n_items` steps yields the current offset and advances it with `skip`
(cursor semantics modelled from the spec, the `shallow_value.rs` file being
absent from the sources); `read_value` recurses on each yielded offset. -/
def readArrayItems (bs : List Nat) : Nat → Nat → Nat → DRes (List Value)
  | _, _, 0 => .ok []
  | fuel, off, n + 1 =>
    DRes.bind (skip bs off) fun off1 =>
    DRes.bind (readValue bs fuel off) fun v =>
    DRes.bind (readArrayItems bs fuel off1 n) fun vs => .ok (v :: vs)
termination_by fuel _ n => (fuel, n + 1)

/-- The map cursor loop: `skip` twice per step, yielding the (key, value)
offsets. -/
def readMapItems (bs : List Nat) :
    Nat → Nat → Nat → DRes (List (Value × Value))
  | _, _, 0 => .ok []
  | fuel, off, n + 1 =>
    DRes.bind (skip bs off) fun offv =>
    DRes.bind (skip bs offv) fun off1 =>
    DRes.bind (readValue bs fuel off) fun k =>
    DRes.bind (readValue bs fuel offv) fun v =>
    DRes.bind (readMapItems bs fuel off1 n) fun kvs => .ok ((k, v) :: kvs)
termination_by fuel _ n => (fuel, n + 1)

end

mutual

/-- `value.rs::write_value_or_imm`: post-order write of subvalues; pure
immediates are returned without writing, composites are written and
represented by a `Pointer` (or `Cstor0` for an argument-less constructor).
The `Ref` case is modelled from the spec ("pure immediates ... `Ref` ...
return the corresponding Immediate without writing"). -/
def writeValueOrImm (enc : EncSt) : Value → EncSt × Immediate
  | .null => (enc, .null)
  | .bool b => (enc, .bool b)
  | .int64 i => (enc, .int64 i)
  | .float f => (enc, .float f)
  | .string s => (enc, .string s)
  | .bytes b => (enc, .bytes b)
  | .cstor0 c => (enc, .cstor0 c)
  | .ref p => (enc, .ref p)
  | .pointer p => (enc, .pointer p)
  | .tag t v =>
    let r := writeValueOrImm enc v
    let r2 := writeTag r.1 t r.2
    (r2.1, .pointer r2.2)
  | .array vs =>
    let r := writeValueList enc vs
    let r2 := writeArray r.1 r.2
    (r2.1, .pointer r2.2)
  | .map kvs =>
    let r := writeValueKVs enc kvs
    let r2 := writeMap r.1 r.2
    (r2.1, .pointer r2.2)
  | .cstor c args =>
    let r := writeValueList enc args
    writeCstor r.1 c r.2

/-- The immediate-gathering loops of `write_value_or_imm` over children. -/
def writeValueList (enc : EncSt) : List Value → EncSt × List Immediate
  | [] => (enc, [])
  | v :: rest =>
    let r := writeValueOrImm enc v
    let rr := writeValueList r.1 rest
    (rr.1, r.2 :: rr.2)

/-- The key/value gathering loop of `write_value_or_imm` for maps. -/
def writeValueKVs (enc : EncSt) :
    List (Value × Value) → EncSt × List (Immediate × Immediate)
  | [] => (enc, [])
  | (k, v) :: rest =>
    let rk := writeValueOrImm enc k
    let rv := writeValueOrImm rk.1 v
    let rr := writeValueKVs rv.1 rest
    (rr.1, (rk.2, rv.2) :: rr.2)

end

/-- `value.rs::write_value`: write the value-or-immediate, then route the
result through `write_immediate_or_return_pointer`, yielding the offset of
the written value. -/
def writeValue (enc : EncSt) (v : Value) : EncSt × Nat :=
  let r := writeValueOrImm enc v
  writeImmediateOrReturnPointer r.1 r.2

/-! ## Stability of successful reads under buffer extension

A read that succeeds touches only bytes inside the buffer, so appending
bytes cannot change its result.  These lemmas let the write-side proofs
extend the buffer freely. -/

theorem DRes.bind_eq_ok {α β : Type} {x : DRes α} {f : α → DRes β} {r : β} :
    DRes.bind x f = .ok r ↔ ∃ a, x = .ok a ∧ f a = .ok r := by
  cases x <;> simp [DRes.bind]

theorem listSlice_append {bs ext : List Nat} {a b : Nat} {s : List Nat}
    (h : listSlice bs a b = some s) : listSlice (bs ++ ext) a b = some s := by
  rw [listSlice] at h ⊢
  by_cases hc : a ≤ b ∧ b ≤ bs.length
  · rw [if_pos hc] at h
    cases h
    have hc2 : a ≤ b ∧ b ≤ (bs ++ ext).length := by
      constructor
      · exact hc.1
      · simp only [List.length_append]
        omega
    rw [if_pos hc2]
    have ha : a ≤ bs.length := le_trans hc.1 hc.2
    rw [List.drop_append_of_le_length ha,
      List.take_append_of_le_length (by simp only [List.length_drop]; omega)]
  · rw [if_neg hc] at h
    exact absurd h (by simp)

theorem leb128go_append {bs ext : List Nat} : ∀ (fuel shift off res nb : Nat)
    (r : Nat × Nat), 64 - shift = fuel →
    leb128go bs off res shift nb = .ok r →
    leb128go (bs ++ ext) off res shift nb = .ok r := by
  intro fuel
  induction fuel using Nat.strong_induction_on with
  | _ fuel ih =>
    intro shift off res nb r hfuel h
    rw [leb128go] at h ⊢
    cases hB : getByte bs off with
    | none =>
      rw [hB] at h
      exact absurd h (by simp)
    | some c =>
      rw [hB] at h
      rw [getByte_append_left hB]
      dsimp only at h ⊢
      by_cases h1 : c % 128 = c
      · rw [if_pos h1] at h ⊢
        exact h
      · rw [if_neg h1] at h ⊢
        by_cases h2 : 64 ≤ shift + 7
        · rw [if_pos h2] at h
          exact absurd h (by simp)
        · rw [if_neg h2] at h ⊢
          exact ih (64 - (shift + 7)) (by omega) (shift + 7) (off + 1) _ _ r rfl h

theorem leb128_append {bs ext : List Nat} {off : Nat} {r : Nat × Nat}
    (h : leb128 bs off = .ok r) : leb128 (bs ++ ext) off = .ok r :=
  leb128go_append 64 0 off 0 0 r rfl h

theorem u64WithLow_append {bs ext : List Nat} {off low : Nat} {r : Nat × Nat}
    (h : u64WithLow bs off low = .ok r) :
    u64WithLow (bs ++ ext) off low = .ok r := by
  rw [u64WithLow] at h ⊢
  by_cases hl : low < 15
  · rw [if_pos hl] at h ⊢
    exact h
  · rw [if_neg hl] at h ⊢
    obtain ⟨a, ha, hfa⟩ := DRes.bind_eq_ok.mp h
    rw [leb128_append ha]
    simpa [DRes.bind] using hfa

theorem deref_append {bs ext : List Nat} : ∀ (off off' : Nat),
    deref bs off = .ok off' → deref (bs ++ ext) off = .ok off' := by
  intro off
  induction off using Nat.strong_induction_on with
  | _ off ih =>
    intro off' h
    rw [deref] at h ⊢
    cases hB : getByte bs off with
    | none =>
      rw [hB] at h
      exact absurd h (by simp)
    | some c =>
      rw [hB] at h
      rw [getByte_append_left hB]
      dsimp only at h ⊢
      by_cases h15 : c / 16 = 15
      · rw [if_pos h15] at h ⊢
        cases hu : u64WithLow bs off (c % 16) with
        | ok pc =>
          rw [hu] at h
          rw [u64WithLow_append hu]
          dsimp only at h ⊢
          by_cases hz : (pc.1 + 1) % 2 ^ 64 = 0
          · rw [dif_pos hz] at h
            exact absurd h (by simp)
          · rw [dif_neg hz] at h ⊢
            by_cases hle : (pc.1 + 1) % 2 ^ 64 ≤ off
            · rw [dif_pos hle] at h ⊢
              exact ih (off - (pc.1 + 1) % 2 ^ 64) (by omega) off' h
            · rw [dif_neg hle] at h
              exact absurd h (by simp)
        | err e =>
          rw [hu] at h
          exact absurd h (by simp)
        | panic =>
          rw [hu] at h
          exact absurd h (by simp)
        | diverge =>
          rw [hu] at h
          exact absurd h (by simp)
      · rw [if_neg h15] at h ⊢
        exact h

/-- After a successful `deref` the first byte at the result is not a
pointer nibble. -/
theorem deref_ok_nonptr {bs : List Nat} : ∀ (off off' : Nat),
    deref bs off = .ok off' →
    ∃ c, getByte bs off' = some c ∧ c / 16 ≠ 15 := by
  intro off
  induction off using Nat.strong_induction_on with
  | _ off ih =>
    intro off' h
    rw [deref] at h
    cases hB : getByte bs off with
    | none =>
      rw [hB] at h
      exact absurd h (by simp)
    | some c =>
      rw [hB] at h
      dsimp only at h
      by_cases h15 : c / 16 = 15
      · rw [if_pos h15] at h
        cases hu : u64WithLow bs off (c % 16) with
        | ok pc =>
          rw [hu] at h
          dsimp only at h
          by_cases hz : (pc.1 + 1) % 2 ^ 64 = 0
          · rw [dif_pos hz] at h
            exact absurd h (by simp)
          · rw [dif_neg hz] at h
            by_cases hle : (pc.1 + 1) % 2 ^ 64 ≤ off
            · rw [dif_pos hle] at h
              exact ih (off - (pc.1 + 1) % 2 ^ 64) (by omega) off' h
            · rw [dif_neg hle] at h
              exact absurd h (by simp)
        | err e =>
          rw [hu] at h
          exact absurd h (by simp)
        | panic =>
          rw [hu] at h
          exact absurd h (by simp)
        | diverge =>
          rw [hu] at h
          exact absurd h (by simp)
      · rw [if_neg h15] at h
        cases h
        exact ⟨c, hB, h15⟩

/-- `deref` is idempotent on success. -/
theorem deref_idem {bs : List Nat} {off off' : Nat}
    (h : deref bs off = .ok off') : deref bs off' = .ok off' := by
  obtain ⟨c, hc, h15⟩ := deref_ok_nonptr off off' h
  rw [deref, hc]
  dsimp only
  rw [if_neg h15]

theorem bind_u64_stable {bs ext : List Nat} {off low : Nat} {gam : Type}
    {f : Nat × Nat → DRes gam} {r : gam}
    (h : DRes.bind (u64WithLow bs off low) f = .ok r) :
    DRes.bind (u64WithLow (bs ++ ext) off low) f = .ok r := by
  obtain ⟨a, ha, hfa⟩ := DRes.bind_eq_ok.mp h
  rw [u64WithLow_append ha, DRes.bind_ok]
  exact hfa

theorem skip_append {bs ext : List Nat} {off r : Nat}
    (h : skip bs off = .ok r) : skip (bs ++ ext) off = .ok r := by
  rw [skip] at h ⊢
  cases hB : getByte bs off with
  | none =>
    rw [hB] at h
    exact absurd h (by simp)
  | some c =>
    rw [hB] at h
    rw [getByte_append_left hB]
    dsimp only at h ⊢
    by_cases h0 : c / 16 = 0
    · rw [if_pos h0] at h ⊢
      exact h
    · rw [if_neg h0] at h ⊢
      by_cases h12 : c / 16 = 1 ∨ c / 16 = 2
      · rw [if_pos h12] at h ⊢
        exact bind_u64_stable h
      · rw [if_neg h12] at h ⊢
        by_cases h3 : c / 16 = 3
        · rw [if_pos h3] at h ⊢
          exact h
        · rw [if_neg h3] at h ⊢
          by_cases h45 : c / 16 = 4 ∨ c / 16 = 5
          · rw [if_pos h45] at h ⊢
            exact bind_u64_stable h
          · rw [if_neg h45] at h ⊢
            by_cases h678 : c / 16 = 6 ∨ c / 16 = 7 ∨ c / 16 = 8
            · rw [if_pos h678] at h
              exact absurd h (by simp)
            · rw [if_neg h678] at h ⊢
              by_cases h913 : c / 16 = 9 ∨ c / 16 = 13
              · rw [if_pos h913] at h
                exact absurd h (by simp)
              · rw [if_neg h913] at h ⊢
                by_cases h10 : c / 16 = 10
                · rw [if_pos h10] at h ⊢
                  exact bind_u64_stable h
                · rw [if_neg h10] at h ⊢
                  by_cases h1112 : c / 16 = 11 ∨ c / 16 = 12
                  · rw [if_pos h1112] at h
                    exact absurd h (by simp)
                  · rw [if_neg h1112] at h ⊢
                    by_cases h1415 : c / 16 = 14 ∨ c / 16 = 15
                    · rw [if_pos h1415] at h ⊢
                      exact bind_u64_stable h
                    · rw [if_neg h1415] at h
                      exact absurd h (by simp)

theorem bind_stable {α gam : Type} {x y : DRes α} {f : α → DRes gam} {r : gam}
    (hxy : ∀ a, x = .ok a → y = .ok a) (h : DRes.bind x f = .ok r) :
    DRes.bind y f = .ok r := by
  obtain ⟨a, ha, hfa⟩ := DRes.bind_eq_ok.mp h
  rw [hxy a ha, DRes.bind_ok]
  exact hfa

theorem i64Pos_append {bs ext : List Nat} {off low : Nat} {i : Int}
    (h : i64Pos bs off low = .ok i) : i64Pos (bs ++ ext) off low = .ok i := by
  rw [i64Pos] at h ⊢
  exact bind_u64_stable h

theorem i64Neg_append {bs ext : List Nat} {off low : Nat} {i : Int}
    (h : i64Neg bs off low = .ok i) : i64Neg (bs ++ ext) off low = .ok i := by
  rw [i64Neg] at h ⊢
  exact bind_u64_stable h

theorem tagD_append {bs ext : List Nat} {off low : Nat} {t : Nat × Nat}
    (h : tagD bs off low = .ok t) : tagD (bs ++ ext) off low = .ok t := by
  rw [tagD] at h ⊢
  exact bind_u64_stable h

theorem arrayCursorD_append {bs ext : List Nat} {off low : Nat}
    {a : ArrayCursor} (h : arrayCursorD bs off low = .ok a) :
    arrayCursorD (bs ++ ext) off low = .ok a := by
  rw [arrayCursorD] at h ⊢
  exact bind_u64_stable h

theorem mapCursorD_append {bs ext : List Nat} {off low : Nat}
    {m : MapCursor} (h : mapCursorD bs off low = .ok m) :
    mapCursorD (bs ++ ext) off low = .ok m := by
  rw [mapCursorD] at h ⊢
  exact bind_u64_stable h

theorem strD_append {bs ext : List Nat} {off low : Nat} {s : List Nat}
    (h : strD bs off low = .ok s) : strD (bs ++ ext) off low = .ok s := by
  rw [strD] at h ⊢
  obtain ⟨a, ha, hfa⟩ := DRes.bind_eq_ok.mp h
  rw [u64WithLow_append ha, DRes.bind_ok]
  cases hs : listSlice bs (off + 1 + a.2) (off + 1 + a.2 + a.1) with
  | none =>
    rw [hs] at hfa
    exact absurd hfa (by simp)
  | some sl =>
    rw [hs] at hfa
    rw [listSlice_append hs]
    exact hfa

theorem bytesD_append {bs ext : List Nat} {off low : Nat} {s : List Nat}
    (h : bytesD bs off low = .ok s) : bytesD (bs ++ ext) off low = .ok s := by
  rw [bytesD] at h ⊢
  obtain ⟨a, ha, hfa⟩ := DRes.bind_eq_ok.mp h
  rw [u64WithLow_append ha, DRes.bind_ok]
  cases hs : listSlice bs (off + 1 + a.2) (off + 1 + a.2 + a.1) with
  | none =>
    rw [hs] at hfa
    exact absurd hfa (by simp)
  | some sl =>
    rw [hs] at hfa
    rw [listSlice_append hs]
    exact hfa

theorem floatD_append {bs ext : List Nat} {off low : Nat} {f : Nat}
    (h : floatD bs off low = .ok f) : floatD (bs ++ ext) off low = .ok f := by
  rw [floatD] at h ⊢
  by_cases h0 : low = 0
  · rw [if_pos h0] at h ⊢
    cases hs : listSlice bs (off + 1) (off + 1 + 4) with
    | none =>
      rw [hs] at h
      exact absurd h (by simp)
    | some arr =>
      rw [hs] at h
      rw [listSlice_append hs]
      exact h
  · rw [if_neg h0] at h ⊢
    by_cases h1 : low = 1
    · rw [if_pos h1] at h ⊢
      cases hs : listSlice bs (off + 1) (off + 1 + 8) with
      | none =>
        rw [hs] at h
        exact absurd h (by simp)
      | some arr =>
        rw [hs] at h
        rw [listSlice_append hs]
        exact h
    · rw [if_neg h1] at h
      exact absurd h (by simp)

theorem cstorD_append {bs ext : List Nat} {off high low : Nat}
    {rc : Nat × ArrayCursor} (h : cstorD bs off high low = .ok rc) :
    cstorD (bs ++ ext) off high low = .ok rc := by
  rw [cstorD] at h ⊢
  by_cases h10 : high = 10
  · rw [if_pos h10] at h ⊢
    exact bind_u64_stable h
  · rw [if_neg h10] at h ⊢
    by_cases h11 : high = 11
    · rw [if_pos h11] at h ⊢
      exact bind_u64_stable h
    · rw [if_neg h11] at h ⊢
      by_cases h12 : high = 12
      · rw [if_pos h12] at h ⊢
        obtain ⟨a, ha, hfa⟩ := DRes.bind_eq_ok.mp h
        rw [u64WithLow_append ha, DRes.bind_ok]
        obtain ⟨m, hm, hfm⟩ := DRes.bind_eq_ok.mp hfa
        rw [leb128_append hm, DRes.bind_ok]
        exact hfm
      · rw [if_neg h12] at h
        exact absurd h (by simp)

theorem getShallowValue_append {bs ext : List Nat} {off0 : Nat}
    {sv : ShallowValue} (h : getShallowValue bs off0 = .ok sv) :
    getShallowValue (bs ++ ext) off0 = .ok sv := by
  rw [getShallowValue] at h ⊢
  obtain ⟨off, hd, hrest⟩ := DRes.bind_eq_ok.mp h
  rw [deref_append off0 off hd, DRes.bind_ok]
  cases hB : getByte bs off with
  | none =>
    rw [hB] at hrest
    exact absurd hrest (by simp)
  | some c =>
    rw [hB] at hrest
    rw [getByte_append_left hB]
    dsimp only at hrest ⊢
    by_cases k0 : c / 16 = 0
    · rw [if_pos k0] at hrest ⊢
      exact hrest
    · rw [if_neg k0] at hrest ⊢
      by_cases k1 : c / 16 = 1
      · rw [if_pos k1] at hrest ⊢
        exact bind_stable (fun a ha => i64Pos_append ha) hrest
      · rw [if_neg k1] at hrest ⊢
        by_cases k2 : c / 16 = 2
        · rw [if_pos k2] at hrest ⊢
          exact bind_stable (fun a ha => i64Neg_append ha) hrest
        · rw [if_neg k2] at hrest ⊢
          by_cases k3 : c / 16 = 3
          · rw [if_pos k3] at hrest ⊢
            exact bind_stable (fun a ha => floatD_append ha) hrest
          · rw [if_neg k3] at hrest ⊢
            by_cases k4 : c / 16 = 4
            · rw [if_pos k4] at hrest ⊢
              exact bind_stable (fun a ha => strD_append ha) hrest
            · rw [if_neg k4] at hrest ⊢
              by_cases k5 : c / 16 = 5
              · rw [if_pos k5] at hrest ⊢
                exact bind_stable (fun a ha => bytesD_append ha) hrest
              · rw [if_neg k5] at hrest ⊢
                by_cases k6 : c / 16 = 6
                · rw [if_pos k6] at hrest ⊢
                  exact bind_stable (fun a ha => arrayCursorD_append ha) hrest
                · rw [if_neg k6] at hrest ⊢
                  by_cases k7 : c / 16 = 7
                  · rw [if_pos k7] at hrest ⊢
                    exact bind_stable (fun a ha => mapCursorD_append ha) hrest
                  · rw [if_neg k7] at hrest ⊢
                    by_cases k8 : c / 16 = 8
                    · rw [if_pos k8] at hrest ⊢
                      exact bind_stable (fun a ha => tagD_append ha) hrest
                    · rw [if_neg k8] at hrest ⊢
                      by_cases k10 : c / 16 = 10 ∨ c / 16 = 11 ∨ c / 16 = 12
                      · rw [if_pos k10] at hrest ⊢
                        exact bind_stable (fun a ha => cstorD_append ha) hrest
                      · rw [if_neg k10] at hrest ⊢
                        by_cases k14 : c / 16 = 14
                        · rw [if_pos k14] at hrest ⊢
                          exact bind_u64_stable hrest
                        · rw [if_neg k14] at hrest ⊢
                          by_cases k15 : c / 16 = 15
                          · rw [if_pos k15] at hrest
                            exact absurd hrest (by simp)
                          · rw [if_neg k15] at hrest
                            exact absurd hrest (by simp)

/-- Successful deep reads are stable under buffer extension. -/
theorem readValue_append {bs ext : List Nat} : ∀ (fuel off : Nat) (v : Value),
    readValue bs fuel off = .ok v → readValue (bs ++ ext) fuel off = .ok v := by
  intro fuel
  induction fuel with
  | zero =>
    intro off v h
    rw [readValue] at h
    exact absurd h (by simp)
  | succ fuel ihV =>
    have hA : ∀ n off vs, readArrayItems bs fuel off n = .ok vs →
        readArrayItems (bs ++ ext) fuel off n = .ok vs := by
      intro n
      induction n with
      | zero =>
        intro off vs h
        rw [readArrayItems] at h ⊢
        exact h
      | succ n ihn =>
        intro off vs h
        rw [readArrayItems] at h ⊢
        obtain ⟨o1, ho1, h2⟩ := DRes.bind_eq_ok.mp h
        rw [skip_append ho1, DRes.bind_ok]
        obtain ⟨v, hv, h3⟩ := DRes.bind_eq_ok.mp h2
        rw [ihV off v hv, DRes.bind_ok]
        obtain ⟨vs1, hvs1, h4⟩ := DRes.bind_eq_ok.mp h3
        rw [ihn o1 vs1 hvs1, DRes.bind_ok]
        exact h4
    have hM : ∀ n off kvs, readMapItems bs fuel off n = .ok kvs →
        readMapItems (bs ++ ext) fuel off n = .ok kvs := by
      intro n
      induction n with
      | zero =>
        intro off kvs h
        rw [readMapItems] at h ⊢
        exact h
      | succ n ihn =>
        intro off kvs h
        rw [readMapItems] at h ⊢
        obtain ⟨ov, hov, h2⟩ := DRes.bind_eq_ok.mp h
        rw [skip_append hov, DRes.bind_ok]
        obtain ⟨o1, ho1, h3⟩ := DRes.bind_eq_ok.mp h2
        rw [skip_append ho1, DRes.bind_ok]
        obtain ⟨k, hk, h4⟩ := DRes.bind_eq_ok.mp h3
        rw [ihV off k hk, DRes.bind_ok]
        obtain ⟨v, hv, h5⟩ := DRes.bind_eq_ok.mp h4
        rw [ihV ov v hv, DRes.bind_ok]
        obtain ⟨kvs1, hkvs1, h6⟩ := DRes.bind_eq_ok.mp h5
        rw [ihn o1 kvs1 hkvs1, DRes.bind_ok]
        exact h6
    intro off v h
    rw [readValue] at h ⊢
    obtain ⟨sv, hsv, h2⟩ := DRes.bind_eq_ok.mp h
    rw [getShallowValue_append hsv, DRes.bind_ok]
    cases sv with
    | imm w => exact h2
    | tag t off1 =>
      dsimp only at h2 ⊢
      obtain ⟨w, hw, h3⟩ := DRes.bind_eq_ok.mp h2
      rw [ihV off1 w hw, DRes.bind_ok]
      exact h3
    | array cur =>
      dsimp only at h2 ⊢
      obtain ⟨vs, hvs, h3⟩ := DRes.bind_eq_ok.mp h2
      rw [hA cur.nItems cur.off vs hvs, DRes.bind_ok]
      exact h3
    | map cur =>
      dsimp only at h2 ⊢
      obtain ⟨kvs, hkvs, h3⟩ := DRes.bind_eq_ok.mp h2
      rw [hM cur.nItems cur.off kvs hkvs, DRes.bind_ok]
      exact h3
    | cstor idx cur =>
      dsimp only at h2 ⊢
      obtain ⟨vs, hvs, h3⟩ := DRes.bind_eq_ok.mp h2
      rw [hA cur.nItems cur.off vs hvs, DRes.bind_ok]
      exact h3

/-! ## Read-back of written records -/

/-- The bytes `first_byte_and_u64` appends for tag `high` and value `n`. -/
def hdrBytes (high n : Nat) : List Nat :=
  if n < 15 then [16 * high + n] else (16 * high + 15) :: encLeb128 (n - 15)

theorem firstByteAndU64_eq (w : List Nat) (off high n : Nat) :
    firstByteAndU64 ⟨w, off⟩ high n
      = (⟨w ++ hdrBytes high n, off + (hdrBytes high n).length⟩, off) := by
  rw [firstByteAndU64, hdrBytes]
  by_cases h : n < 15
  · rw [if_pos h, if_pos h, firstByteE]
    simp
  · rw [if_neg h, if_neg h]

theorem hdrBytes_length (high n : Nat) (hn : n < 2 ^ 64) :
    1 ≤ (hdrBytes high n).length ∧ (hdrBytes high n).length ≤ 11 := by
  rw [hdrBytes]
  by_cases h : n < 15
  · rw [if_pos h]
    simp
  · rw [if_neg h]
    simp only [List.length_cons]
    have h70 : n - 15 < 2 ^ (7 * 10) := by
      have : (2 : Nat) ^ 64 ≤ 2 ^ (7 * 10) := Nat.pow_le_pow_right (by norm_num) (by norm_num)
      omega
    have := encLeb128_length_le 10 (n - 15) (by norm_num) h70
    omega

/-- The first byte of a written header splits back into `(high, low)`. -/
theorem hdr_getByte (high n : Nat) (pre post : List Nat) :
    ∃ c, getByte (pre ++ hdrBytes high n ++ post) pre.length = some c ∧
      c / 16 = high ∧ c % 16 = (if n < 15 then n else 15) := by
  rw [hdrBytes]
  by_cases h : n < 15
  · rw [if_pos h, if_pos h]
    refine ⟨16 * high + n, ?_, by omega, by omega⟩
    simpa using getByte_at_length pre (16 * high + n) post
  · rw [if_neg h, if_neg h]
    refine ⟨16 * high + 15, ?_, by omega, by omega⟩
    simpa using getByte_at_length pre (16 * high + 15) (encLeb128 (n - 15) ++ post)

/-- `u64_with_low` recovers the value and byte count of a written header. -/
theorem hdr_u64WithLow (high n : Nat) (hn : n < 2 ^ 64) (pre post : List Nat) :
    u64WithLow (pre ++ hdrBytes high n ++ post) pre.length
      (if n < 15 then n else 15)
      = .ok (n, (hdrBytes high n).length - 1) := by
  by_cases h : n < 15
  · rw [if_pos h, u64WithLow, if_pos h, hdrBytes, if_pos h]
    simp
  · rw [if_neg h, u64WithLow, if_neg (show ¬ (15 : Nat) < 15 by omega)]
    have hlist : pre ++ hdrBytes high n ++ post
        = (pre ++ [16 * high + 15]) ++ encLeb128 (n - 15) ++ post := by
      rw [hdrBytes, if_neg h]
      simp
    have hlen1 : pre.length + 1 = (pre ++ [16 * high + 15]).length := by simp
    rw [hlist, hlen1]
    have hrt := leb128go_encLeb128 (n - 15) 0 0 0 (pre ++ [16 * high + 15]) post
      (by omega) (by simpa using (by omega : n - 15 < 2 ^ 64)) (by norm_num)
    rw [show (leb128 ((pre ++ [16 * high + 15]) ++ encLeb128 (n - 15) ++ post)
        (pre ++ [16 * high + 15]).length)
      = leb128go ((pre ++ [16 * high + 15]) ++ encLeb128 (n - 15) ++ post)
        (pre ++ [16 * high + 15]).length 0 0 0 from rfl, hrt, DRes.bind_ok]
    have h1 : ((n - 15) * 2 ^ 0 + 0 + 15) % 2 ^ 64 = n := by
      simp only [pow_zero, Nat.mul_one, Nat.add_zero]
      omega
    rw [hdrBytes, if_neg h]
    simp only [List.length_cons]
    rw [h1]
    have h2 : 0 + (encLeb128 (n - 15)).length
        = (encLeb128 (n - 15)).length + 1 - 1 := by omega
    rw [h2]

theorem natToLeBytes_length (k v : Nat) : (natToLeBytes k v).length = k := by
  induction k generalizing v with
  | zero => rfl
  | succ k ih =>
    rw [natToLeBytes]
    simp [ih]

/-- Little-endian byte round-trip for values within width. -/
theorem leBytesToNat_natToLeBytes (k v : Nat) (hv : v < 2 ^ (8 * k)) :
    leBytesToNat (natToLeBytes k v) = v := by
  induction k generalizing v with
  | zero =>
    have : v = 0 := by
      have : (2 : Nat) ^ (8 * 0) = 1 := by norm_num
      omega
    subst this
    rfl
  | succ k ih =>
    rw [natToLeBytes, leBytesToNat]
    have hdiv : v / 256 < 2 ^ (8 * k) := by
      have h2 : 2 ^ (8 * (k + 1)) = 2 ^ (8 * k) * 256 := by
        rw [show 8 * (k + 1) = 8 * k + 8 by ring, pow_add]
        norm_num
      rw [Nat.div_lt_iff_lt_mul (by norm_num : (0:Nat) < 256)]
      omega
    rw [ih (v / 256) hdiv]
    omega

/-! ## The value grammar of the round-trip property -/

mutual

/-- Number of nodes of a value tree. -/
def vsize : Value → Nat
  | .tag _ v => 1 + vsize v
  | .array vs => 1 + vsizeList vs
  | .map kvs => 1 + vsizeKVs kvs
  | .cstor _ args => 1 + vsizeList args
  | _ => 1

def vsizeList : List Value → Nat
  | [] => 0
  | v :: rest => vsize v + vsizeList rest

def vsizeKVs : List (Value × Value) → Nat
  | [] => 0
  | (k, v) :: rest => vsize k + vsize v + vsizeKVs rest

end

mutual

/-- Depth of a value tree (leaves have depth 1). -/
def vdepth : Value → Nat
  | .tag _ v => 1 + vdepth v
  | .array vs => 1 + vdepthList vs
  | .map kvs => 1 + vdepthKVs kvs
  | .cstor _ args => 1 + vdepthList args
  | _ => 1

def vdepthList : List Value → Nat
  | [] => 0
  | v :: rest => max (vdepth v) (vdepthList rest)

def vdepthKVs : List (Value × Value) → Nat
  | [] => 0
  | (k, v) :: rest => max (max (vdepth k) (vdepth v)) (vdepthKVs rest)

end

mutual

/-- An upper bound on the bytes the encoder spends on a value: the bytes
written while preparing it plus the bytes of embedding its immediate
(header ≤ 11, plus payload). -/
def cost : Value → Nat
  | .string s => 12 + s.length
  | .bytes b => 12 + b.length
  | .tag _ v => 24 + cost v
  | .array vs => 24 + costList vs
  | .map kvs => 24 + costKVs kvs
  | .cstor _ args => 34 + costList args
  | _ => 12

def costList : List Value → Nat
  | [] => 0
  | v :: rest => cost v + costList rest

def costKVs : List (Value × Value) → Nat
  | [] => 0
  | (k, v) :: rest => cost k + cost v + costKVs rest

end

/-- The grammar of the crate's own round-trip property test
(`value.rs::tests::arb_values`, `prop_recursive(8, 256, 10)`): leaves
`Null`, `Bool`, `Int64` (any `i64`), `Float`, `String`, closed under
`Array` and `Map` of at most 10 children.  The string bound keeps any tree
of ≤ 256 nodes within the decoder's `u32::MAX` buffer limit (the generator's
`".*"` strings are far smaller). -/
inductive GenValue : Value → Prop
  | null : GenValue .null
  | bool (b : Bool) : GenValue (.bool b)
  | int64 (i : Int) : -(2 ^ 63) ≤ i → i < 2 ^ 63 → GenValue (.int64 i)
  | float (bits : Nat) : bits < 2 ^ 64 → GenValue (.float bits)
  | string (s : List Nat) : utf8Valid s = true → s.length ≤ 2 ^ 20 →
      GenValue (.string s)
  | array (vs : List Value) : vs.length ≤ 10 → (∀ v ∈ vs, GenValue v) →
      GenValue (.array vs)
  | map (kvs : List (Value × Value)) : kvs.length ≤ 10 →
      (∀ kv ∈ kvs, GenValue kv.1) → (∀ kv ∈ kvs, GenValue kv.2) →
      GenValue (.map kvs)

/-- `read_value` returns `v` at `off` for every sufficiently large fuel. -/
def ReadsAt (bs : List Nat) (off : Nat) (v : Value) : Prop :=
  ∃ fuel0, ∀ fuel, fuel0 ≤ fuel → readValue bs fuel off = .ok v

/-- The invariant tying the immediate returned by `write_value_or_imm` to
the value it stands for: a `Pointer` points below the current buffer end
and reads back as `v` under any extension; a pure immediate carries the
value (with the well-formedness its write/read path needs). -/
def ImmOK (bs : List Nat) (imm : Immediate) (v : Value) : Prop :=
  match imm, v with
  | .pointer p, v => p < bs.length ∧ ∀ ext, ReadsAt (bs ++ ext) p v
  | .null, v => v = .null
  | .bool b, v => v = .bool b
  | .int64 i, v => v = .int64 i ∧ -(2 ^ 63) ≤ i ∧ i < 2 ^ 63
  | .float f, v => v = .float f ∧ f < 2 ^ 64
  | .string s, v => v = .string s ∧ utf8Valid s = true ∧ s.length ≤ 2 ^ 32 - 1
  | _, _ => False

/-- Bytes the parent will spend embedding an immediate
(`write_immediate`). -/
def immCost : Immediate → Nat
  | .null => 1
  | .bool _ => 1
  | .int64 _ => 11
  | .float _ => 9
  | .string s => 11 + s.length
  | .bytes b => 11 + b.length
  | .cstor0 _ => 11
  | .ref _ => 11
  | .pointer _ => 11

theorem ImmOK_append {bs : List Nat} (ext : List Nat) {imm : Immediate}
    {v : Value} (h : ImmOK bs imm v) : ImmOK (bs ++ ext) imm v := by
  cases imm <;> simp only [ImmOK] at h ⊢ <;> try exact h
  case pointer p =>
    refine ⟨by simp only [List.length_append]; omega, fun ext2 => ?_⟩
    have h2 := h.2 (ext ++ ext2)
    rwa [← List.append_assoc] at h2

theorem listSlice_exact (pre s post : List Nat) :
    listSlice (pre ++ s ++ post) pre.length (pre.length + s.length)
      = some s := by
  rw [listSlice]
  rw [if_pos ⟨by omega, by simp only [List.length_append]; omega⟩]
  congr 1
  rw [List.append_assoc, List.drop_left, Nat.add_sub_cancel_left,
    List.take_left]

/-- `deref` is the identity at a non-pointer byte. -/
theorem deref_nonptr {bs : List Nat} {off c : Nat}
    (hB : getByte bs off = some c) (h15 : c / 16 ≠ 15) :
    deref bs off = .ok off := by
  rw [deref, hB]
  dsimp only
  rw [if_neg h15]

theorem getShallowValue_congr {bs : List Nat} {off1 off2 : Nat}
    (h : deref bs off1 = deref bs off2) :
    getShallowValue bs off1 = getShallowValue bs off2 := by
  rw [getShallowValue, getShallowValue, h]

theorem readValue_congr {bs : List Nat} {off1 off2 : Nat}
    (h : getShallowValue bs off1 = getShallowValue bs off2) :
    ∀ fuel, 1 ≤ fuel → readValue bs fuel off1 = readValue bs fuel off2 := by
  intro fuel hf
  cases fuel with
  | zero => omega
  | succ f => rw [readValue, readValue, h]

/-- A shallow immediate makes `read_value` return its conversion at any
positive fuel. -/
theorem readValue_of_imm {bs : List Nat} {off : Nat} {w : Immediate}
    (h : getShallowValue bs off = .ok (.imm w)) :
    ∀ fuel, 1 ≤ fuel → readValue bs fuel off = .ok (immToValue w) := by
  intro fuel hf
  cases fuel with
  | zero => omega
  | succ f =>
    rw [readValue, h, DRes.bind_ok]

/-- Writing an immediate at the end of the buffer appends its record; the
record skips to its end and reads back as the value it stands for, under
any further extension of the buffer. -/
theorem writeImmediate_ok (bs2 : List Nat) (imm : Immediate) (v : Value)
    (hlen : bs2.length + immCost imm < 2 ^ 64) (hok : ImmOK bs2 imm v) :
    ∃ D : List Nat,
      writeImmediate ⟨bs2, bs2.length⟩ imm
        = (⟨bs2 ++ D, bs2.length + D.length⟩, bs2.length) ∧
      1 ≤ D.length ∧ D.length ≤ immCost imm ∧
      (∀ ext, skip (bs2 ++ D ++ ext) bs2.length
        = .ok (bs2.length + D.length)) ∧
      (∀ ext, ReadsAt (bs2 ++ D ++ ext) bs2.length v) := by
  cases imm with
  | null =>
    rw [ImmOK] at hok
    subst hok
    refine ⟨[16 * 0 + 2], by simp [writeImmediate, writeNull, firstByteE],
      by simp, by simp [immCost], fun ext => ?_, fun ext => ?_⟩
    all_goals
      have hB : getByte (bs2 ++ [16 * 0 + 2] ++ ext) bs2.length
          = some (16 * 0 + 2) := by
        simpa using getByte_at_length bs2 (16 * 0 + 2) ext
    · rw [skip, hB]
      dsimp only
      rw [if_pos (by norm_num)]
      simp
    · have hgsv : getShallowValue (bs2 ++ [16 * 0 + 2] ++ ext) bs2.length
          = .ok (.imm .null) := by
        rw [getShallowValue, deref_nonptr hB (by norm_num), DRes.bind_ok, hB]
        dsimp only
        rw [if_pos (by norm_num), if_pos (by norm_num)]
      exact ⟨1, fun fuel hf => readValue_of_imm hgsv fuel hf⟩
  | bool b =>
    rw [ImmOK] at hok
    subst hok
    cases b with
    | false =>
      refine ⟨[16 * 0 + 0], by simp [writeImmediate, writeBool, firstByteE],
        by simp, by simp [immCost], fun ext => ?_, fun ext => ?_⟩
      all_goals
        have hB : getByte (bs2 ++ [16 * 0 + 0] ++ ext) bs2.length
            = some (16 * 0 + 0) := by
          simpa using getByte_at_length bs2 (16 * 0 + 0) ext
      · rw [skip, hB]
        dsimp only
        rw [if_pos (by norm_num)]
        simp
      · have hgsv : getShallowValue (bs2 ++ [16 * 0 + 0] ++ ext) bs2.length
            = .ok (.imm (.bool false)) := by
          rw [getShallowValue, deref_nonptr hB (by norm_num), DRes.bind_ok, hB]
          dsimp only
          rw [if_pos (by norm_num), if_neg (by norm_num), if_pos (by norm_num)]
        exact ⟨1, fun fuel hf => readValue_of_imm hgsv fuel hf⟩
    | true =>
      refine ⟨[16 * 0 + 1], by simp [writeImmediate, writeBool, firstByteE],
        by simp, by simp [immCost], fun ext => ?_, fun ext => ?_⟩
      all_goals
        have hB : getByte (bs2 ++ [16 * 0 + 1] ++ ext) bs2.length
            = some (16 * 0 + 1) := by
          simpa using getByte_at_length bs2 (16 * 0 + 1) ext
      · rw [skip, hB]
        dsimp only
        rw [if_pos (by norm_num)]
        simp
      · have hgsv : getShallowValue (bs2 ++ [16 * 0 + 1] ++ ext) bs2.length
            = .ok (.imm (.bool true)) := by
          rw [getShallowValue, deref_nonptr hB (by norm_num), DRes.bind_ok, hB]
          dsimp only
          rw [if_pos (by norm_num), if_neg (by norm_num), if_neg (by norm_num),
            if_pos (by norm_num)]
        exact ⟨1, fun fuel hf => readValue_of_imm hgsv fuel hf⟩
  | int64 i =>
    rw [ImmOK] at hok
    obtain ⟨hv, hlo, hhi⟩ := hok
    subst hv
    by_cases hneg : i < 0
    · set n : Nat := (-i - 1).toNat with hn
      have hn64 : n < 2 ^ 64 := by
        have h63 : (2 : Int) ^ 63 ≤ 2 ^ 64 := by norm_num
        have : n ≤ 2 ^ 63 - 1 := by omega
        have h2 : (2 : Nat) ^ 63 - 1 < 2 ^ 64 := by norm_num
        omega
      refine ⟨hdrBytes 2 n, by rw [writeImmediate, writeI64, if_pos hneg,
          firstByteAndU64_eq], (hdrBytes_length 2 n hn64).1,
        le_trans (hdrBytes_length 2 n hn64).2 (by rw [immCost]),
        fun ext => ?_, fun ext => ?_⟩
      all_goals
        obtain ⟨c, hcB, hc16, hclow⟩ := hdr_getByte 2 n bs2 ext
      · rw [skip, hcB]
        dsimp only
        rw [if_neg (by omega), if_pos (by omega), hclow,
          hdr_u64WithLow 2 n hn64 bs2 ext, DRes.bind_ok]
        have h1 := (hdrBytes_length 2 n hn64).1
        congr 1
        omega
      · have hgsv : getShallowValue (bs2 ++ hdrBytes 2 n ++ ext) bs2.length
            = .ok (.imm (.int64 i)) := by
          rw [getShallowValue, deref_nonptr hcB (by omega), DRes.bind_ok, hcB]
          dsimp only
          rw [if_neg (by omega), if_neg (by omega), if_pos (by omega)]
          rw [i64Neg, hclow, hdr_u64WithLow 2 n hn64 bs2 ext, DRes.bind_ok]
          rw [if_neg (by omega), DRes.bind_ok]
          have : -(n : Int) - 1 = i := by omega
          rw [this]
        exact ⟨1, fun fuel hf => readValue_of_imm hgsv fuel hf⟩
    · set n : Nat := i.toNat with hn
      have hn63 : n ≤ 2 ^ 63 - 1 := by
        have h1 : (2 : Int) ^ 63 = 9223372036854775808 := by norm_num
        have h2 : (2 : Nat) ^ 63 = 9223372036854775808 := by norm_num
        omega
      have hn64 : n < 2 ^ 64 := by
        have : (2 : Nat) ^ 63 - 1 < 2 ^ 64 := by norm_num
        omega
      refine ⟨hdrBytes 1 n, by rw [writeImmediate, writeI64, if_neg hneg,
          firstByteAndU64_eq], (hdrBytes_length 1 n hn64).1,
        le_trans (hdrBytes_length 1 n hn64).2 (by rw [immCost]),
        fun ext => ?_, fun ext => ?_⟩
      all_goals
        obtain ⟨c, hcB, hc16, hclow⟩ := hdr_getByte 1 n bs2 ext
      · rw [skip, hcB]
        dsimp only
        rw [if_neg (by omega), if_pos (by omega), hclow,
          hdr_u64WithLow 1 n hn64 bs2 ext, DRes.bind_ok]
        have h1 := (hdrBytes_length 1 n hn64).1
        congr 1
        omega
      · have hgsv : getShallowValue (bs2 ++ hdrBytes 1 n ++ ext) bs2.length
            = .ok (.imm (.int64 i)) := by
          rw [getShallowValue, deref_nonptr hcB (by omega), DRes.bind_ok, hcB]
          dsimp only
          rw [if_neg (by omega), if_pos (by omega)]
          rw [i64Pos, hclow, hdr_u64WithLow 1 n hn64 bs2 ext, DRes.bind_ok]
          rw [if_neg (by omega), DRes.bind_ok]
          have : (n : Int) = i := by omega
          rw [this]
        exact ⟨1, fun fuel hf => readValue_of_imm hgsv fuel hf⟩
  | float f =>
    rw [ImmOK] at hok
    obtain ⟨hv, hf64⟩ := hok
    subst hv
    refine ⟨(16 * 3 + 1) :: natToLeBytes 8 f, ?_, by simp,
      by simp [immCost, natToLeBytes_length], fun ext => ?_, fun ext => ?_⟩
    · rw [writeImmediate, writeF64, firstByteE]
      simp [natToLeBytes_length]
    all_goals
      have hB : getByte (bs2 ++ ((16 * 3 + 1) :: natToLeBytes 8 f) ++ ext)
          bs2.length = some (16 * 3 + 1) := by
        simpa using getByte_at_length bs2 (16 * 3 + 1) (natToLeBytes 8 f ++ ext)
    · rw [skip, hB]
      dsimp only
      rw [if_neg (by norm_num), if_neg (by norm_num), if_pos (by norm_num),
        if_neg (by norm_num)]
      simp [natToLeBytes_length]
    · have hslice : listSlice (bs2 ++ ((16 * 3 + 1) :: natToLeBytes 8 f) ++ ext)
          (bs2.length + 1) (bs2.length + 1 + 8) = some (natToLeBytes 8 f) := by
        have h0 := listSlice_exact (bs2 ++ [16 * 3 + 1]) (natToLeBytes 8 f) ext
        rw [natToLeBytes_length 8 f] at h0
        simpa using h0
      have hgsv : getShallowValue
          (bs2 ++ ((16 * 3 + 1) :: natToLeBytes 8 f) ++ ext) bs2.length
          = .ok (.imm (.float f)) := by
        rw [getShallowValue, deref_nonptr hB (by norm_num), DRes.bind_ok, hB]
        dsimp only
        rw [if_neg (by norm_num), if_neg (by norm_num), if_neg (by norm_num),
          if_pos (by norm_num)]
        rw [floatD, if_neg (by norm_num), if_pos (by norm_num), hslice]
        dsimp only
        rw [DRes.bind_ok, leBytesToNat_natToLeBytes 8 f (by simpa using hf64)]
      exact ⟨1, fun fuel hf => readValue_of_imm hgsv fuel hf⟩
  | string s =>
    rw [ImmOK] at hok
    obtain ⟨hv, hutf, hslen⟩ := hok
    subst hv
    have hs64 : s.length < 2 ^ 64 := by
      have : (2 : Nat) ^ 32 - 1 < 2 ^ 64 := by norm_num
      omega
    refine ⟨hdrBytes 4 s.length ++ s, ?_,
      by simp only [List.length_append]
         have := (hdrBytes_length 4 s.length hs64).1
         omega,
      by simp only [List.length_append, immCost]
         have := (hdrBytes_length 4 s.length hs64).2
         omega,
      fun ext => ?_, fun ext => ?_⟩
    · rw [writeImmediate, writeString, firstByteAndU64_eq]
      simp [List.append_assoc, Nat.add_assoc]
    all_goals
      have hassoc : bs2 ++ (hdrBytes 4 s.length ++ s) ++ ext
          = bs2 ++ hdrBytes 4 s.length ++ (s ++ ext) := by simp
      obtain ⟨c, hcB, hc16, hclow⟩ := hdr_getByte 4 s.length bs2 (s ++ ext)
    · rw [hassoc, skip, hcB]
      dsimp only
      rw [hc16]
      rw [if_neg (by norm_num), if_neg (by norm_num), if_neg (by norm_num),
        if_pos (by norm_num), hclow,
        hdr_u64WithLow 4 s.length hs64 bs2 (s ++ ext),
        DRes.bind_ok, if_neg (by omega)]
      have h1 := (hdrBytes_length 4 s.length hs64).1
      congr 1
      simp only [List.length_append]
      omega
    · have hslice : listSlice (bs2 ++ hdrBytes 4 s.length ++ (s ++ ext))
          (bs2.length + 1 + ((hdrBytes 4 s.length).length - 1))
          (bs2.length + 1 + ((hdrBytes 4 s.length).length - 1) + s.length)
          = some s := by
        have h1 := (hdrBytes_length 4 s.length hs64).1
        have hlen1 : bs2.length + 1 + ((hdrBytes 4 s.length).length - 1)
            = (bs2 ++ hdrBytes 4 s.length).length := by
          simp only [List.length_append]
          omega
        have hassoc2 : bs2 ++ hdrBytes 4 s.length ++ (s ++ ext)
            = (bs2 ++ hdrBytes 4 s.length) ++ s ++ ext := by simp
        rw [hlen1, hassoc2]
        exact listSlice_exact (bs2 ++ hdrBytes 4 s.length) s ext
      have hgsv : getShallowValue (bs2 ++ (hdrBytes 4 s.length ++ s) ++ ext)
          bs2.length = .ok (.imm (.string s)) := by
        rw [hassoc, getShallowValue, deref_nonptr hcB (by omega), DRes.bind_ok,
          hcB]
        dsimp only
        rw [hc16]
        rw [if_neg (by norm_num), if_neg (by norm_num), if_neg (by norm_num),
          if_neg (by norm_num), if_pos (by norm_num)]
        rw [strD, hclow, hdr_u64WithLow 4 s.length hs64 bs2 (s ++ ext),
          DRes.bind_ok, hslice]
        dsimp only
        rw [if_pos hutf, DRes.bind_ok]
      exact ⟨1, fun fuel hf => readValue_of_imm hgsv fuel hf⟩
  | bytes b => exact absurd hok (by cases v <;> simp [ImmOK])
  | cstor0 c => exact absurd hok (by cases v <;> simp [ImmOK])
  | ref p => exact absurd hok (by cases v <;> simp [ImmOK])
  | pointer p =>
    rw [ImmOK] at hok
    obtain ⟨hp, hreads⟩ := hok
    set delta : Nat := bs2.length - p - 1 with hdelta
    have hd64 : delta < 2 ^ 64 := by
      rw [immCost] at hlen
      omega
    refine ⟨hdrBytes 15 delta, by rw [writeImmediate, writePointer,
        firstByteAndU64_eq], (hdrBytes_length 15 delta hd64).1,
      le_trans (hdrBytes_length 15 delta hd64).2 (by rw [immCost]),
      fun ext => ?_, fun ext => ?_⟩
    all_goals
      obtain ⟨c, hcB, hc16, hclow⟩ := hdr_getByte 15 delta bs2 ext
    · rw [skip, hcB]
      dsimp only
      rw [hc16]
      rw [if_neg (by norm_num), if_neg (by norm_num), if_neg (by norm_num),
        if_neg (by norm_num), if_neg (by norm_num), if_neg (by norm_num),
        if_neg (by norm_num), if_neg (by norm_num), if_pos (by norm_num),
        hclow, hdr_u64WithLow 15 delta hd64 bs2 ext, DRes.bind_ok]
      have h1 := (hdrBytes_length 15 delta hd64).1
      congr 1
      omega
    · have hstep : (delta + 1) % 2 ^ 64 = delta + 1 := by
        rw [immCost] at hlen
        have : delta + 1 < 2 ^ 64 := by omega
        omega
      have hderef : deref (bs2 ++ hdrBytes 15 delta ++ ext) bs2.length
          = deref (bs2 ++ hdrBytes 15 delta ++ ext) p := by
        rw [deref, hcB]
        dsimp only
        rw [if_pos (by omega), hclow, hdr_u64WithLow 15 delta hd64 bs2 ext]
        dsimp only
        rw [dif_neg (by omega), dif_pos (by rw [hstep]; omega)]
        have : bs2.length - (delta + 1) % 2 ^ 64 = p := by
          rw [hstep]
          omega
        rw [this]
      have hrv := hreads (hdrBytes 15 delta ++ ext)
      rw [← List.append_assoc] at hrv
      obtain ⟨fuel0, hfuel⟩ := hrv
      refine ⟨fuel0 + 1, fun fuel hf => ?_⟩
      rw [readValue_congr (getShallowValue_congr hderef) fuel (by omega)]
      exact hfuel fuel (by omega)

/-- Writing a list of immediates in sequence: the cursor walk of
`read_value` (yield offset, `skip`, recurse) recovers the corresponding
values. -/
theorem writeImms_ok : ∀ (imms : List Immediate) (vs : List Value)
    (bs2 : List Nat),
    List.Forall₂ (fun imm v => ImmOK bs2 imm v) imms vs →
    bs2.length + (imms.map immCost).sum < 2 ^ 64 →
    ∃ D : List Nat,
      writeImms ⟨bs2, bs2.length⟩ imms = ⟨bs2 ++ D, bs2.length + D.length⟩ ∧
      D.length ≤ (imms.map immCost).sum ∧
      ∀ ext, ∃ fuel0, ∀ fuel, fuel0 ≤ fuel →
        readArrayItems (bs2 ++ D ++ ext) fuel bs2.length imms.length
          = .ok vs := by
  intro imms
  induction imms with
  | nil =>
    intro vs bs2 hfa hlen
    rw [List.forall₂_nil_left_iff] at hfa
    subst hfa
    refine ⟨[], by simp [writeImms], by simp, fun ext => ⟨0, fun fuel hf => ?_⟩⟩
    simp only [List.length_nil]
    rw [readArrayItems]
  | cons imm rest ih =>
    intro vs bs2 hfa hlen
    rw [List.forall₂_cons_left_iff] at hfa
    obtain ⟨v, vrest, hok, hrest, rfl⟩ := hfa
    have hlen0 : bs2.length + immCost imm < 2 ^ 64 := by
      simp only [List.map_cons, List.sum_cons] at hlen
      omega
    obtain ⟨D0, hw0, h1le, h0le, hskip0, hread0⟩ :=
      writeImmediate_ok bs2 imm v hlen0 hok
    have hrest' : List.Forall₂ (fun imm v => ImmOK (bs2 ++ D0) imm v)
        rest vrest :=
      List.Forall₂.imp (fun a b hab => ImmOK_append D0 hab) hrest
    have hlen1 : (bs2 ++ D0).length + (rest.map immCost).sum < 2 ^ 64 := by
      simp only [List.map_cons, List.sum_cons] at hlen
      simp only [List.length_append]
      omega
    obtain ⟨D1, hw1, h1len, hread1⟩ := ih vrest (bs2 ++ D0) hrest' hlen1
    refine ⟨D0 ++ D1, ?_, ?_, fun ext => ?_⟩
    · rw [writeImms, hw0]
      dsimp only
      have hlapp : bs2.length + D0.length = (bs2 ++ D0).length := by simp
      rw [hlapp, hw1]
      simp [Nat.add_assoc]
    · simp only [List.length_append, List.map_cons, List.sum_cons]
      omega
    · have hBeq : bs2 ++ (D0 ++ D1) ++ ext = bs2 ++ D0 ++ (D1 ++ ext) := by
        simp
      obtain ⟨f0, hf0⟩ := hread0 (D1 ++ ext)
      obtain ⟨f1, hf1⟩ := hread1 ext
      refine ⟨max f0 f1, fun fuel hf => ?_⟩
      simp only [List.length_cons]
      rw [readArrayItems, hBeq]
      rw [hskip0 (D1 ++ ext), DRes.bind_ok]
      rw [hf0 fuel (le_trans (le_max_left f0 f1) hf), DRes.bind_ok]
      have harr := hf1 fuel (le_trans (le_max_right f0 f1) hf)
      have hpos : (bs2 ++ D0).length = bs2.length + D0.length := by simp
      rw [List.append_assoc (bs2 ++ D0) D1 ext, hpos] at harr
      rw [harr, DRes.bind_ok]

/-- Writing the flattened key/value immediates of a map: the map cursor walk
(two `skip`s per entry) recovers the pairs. -/
theorem writeImmsKV_ok : ∀ (kimms : List (Immediate × Immediate))
    (kvs : List (Value × Value)) (bs2 : List Nat),
    List.Forall₂ (fun ii kv => ImmOK bs2 ii.1 kv.1 ∧ ImmOK bs2 ii.2 kv.2)
      kimms kvs →
    bs2.length + (kimms.map (fun ii => immCost ii.1 + immCost ii.2)).sum
      < 2 ^ 64 →
    ∃ D : List Nat,
      writeImms ⟨bs2, bs2.length⟩ (flattenKVs kimms)
        = ⟨bs2 ++ D, bs2.length + D.length⟩ ∧
      D.length ≤ (kimms.map (fun ii => immCost ii.1 + immCost ii.2)).sum ∧
      ∀ ext, ∃ fuel0, ∀ fuel, fuel0 ≤ fuel →
        readMapItems (bs2 ++ D ++ ext) fuel bs2.length kimms.length
          = .ok kvs := by
  intro kimms
  induction kimms with
  | nil =>
    intro kvs bs2 hfa hlen
    rw [List.forall₂_nil_left_iff] at hfa
    subst hfa
    refine ⟨[], by simp [writeImms, flattenKVs], by simp,
      fun ext => ⟨0, fun fuel hf => ?_⟩⟩
    simp only [List.length_nil]
    rw [readMapItems]
  | cons ii rest ih =>
    intro kvs bs2 hfa hlen
    rw [List.forall₂_cons_left_iff] at hfa
    obtain ⟨kv, vrest, ⟨hokK, hokV⟩, hrest, rfl⟩ := hfa
    obtain ⟨ik, iv⟩ := ii
    obtain ⟨k, v⟩ := kv
    simp only [List.map_cons, List.sum_cons] at hlen
    have hlen0 : bs2.length + immCost ik < 2 ^ 64 := by omega
    obtain ⟨D0, hw0, h1le0, h0le, hskip0, hread0⟩ :=
      writeImmediate_ok bs2 ik k hlen0 hokK
    have hokV' : ImmOK (bs2 ++ D0) iv v := ImmOK_append D0 hokV
    have hlen1 : (bs2 ++ D0).length + immCost iv < 2 ^ 64 := by
      simp only [List.length_append]
      omega
    obtain ⟨D1, hw1, h1le1, h1leC, hskip1, hread1⟩ :=
      writeImmediate_ok (bs2 ++ D0) iv v hlen1 hokV'
    have hrest' : List.Forall₂
        (fun jj kv => ImmOK (bs2 ++ D0 ++ D1) jj.1 kv.1 ∧
          ImmOK (bs2 ++ D0 ++ D1) jj.2 kv.2) rest vrest :=
      List.Forall₂.imp
        (fun a b hab => ⟨ImmOK_append D1 (ImmOK_append D0 hab.1),
          ImmOK_append D1 (ImmOK_append D0 hab.2)⟩) hrest
    have hlen2 : (bs2 ++ D0 ++ D1).length
        + (rest.map (fun ii => immCost ii.1 + immCost ii.2)).sum < 2 ^ 64 := by
      simp only [List.length_append]
      omega
    obtain ⟨D2, hw2, h2len, hread2⟩ := ih vrest (bs2 ++ D0 ++ D1) hrest' hlen2
    refine ⟨D0 ++ D1 ++ D2, ?_, ?_, fun ext => ?_⟩
    · rw [show flattenKVs ((ik, iv) :: rest)
          = ik :: iv :: flattenKVs rest from rfl]
      rw [writeImms, hw0]
      dsimp only
      have hl0 : bs2.length + D0.length = (bs2 ++ D0).length := by simp
      rw [hl0, writeImms, hw1]
      dsimp only
      have hl1 : (bs2 ++ D0).length + D1.length = (bs2 ++ D0 ++ D1).length := by
        simp only [List.length_append]
      rw [hl1, hw2]
      have hoff : (bs2 ++ D0 ++ D1).length + D2.length
          = bs2.length + (D0 ++ D1 ++ D2).length := by
        simp only [List.length_append]
        omega
      have hwq : bs2 ++ D0 ++ D1 ++ D2 = bs2 ++ (D0 ++ D1 ++ D2) := by
        simp only [List.append_assoc]
      rw [hoff, hwq]
    · simp only [List.length_append, List.map_cons, List.sum_cons]
      omega
    · obtain ⟨f0, hf0⟩ := hread0 (D1 ++ (D2 ++ ext))
      obtain ⟨f1, hf1⟩ := hread1 (D2 ++ ext)
      obtain ⟨f2, hf2⟩ := hread2 ext
      have hsk0 := hskip0 (D1 ++ (D2 ++ ext))
      have hsk1 := hskip1 (D2 ++ ext)
      refine ⟨max f0 (max f1 f2), fun fuel hf => ?_⟩
      simp only [List.length_cons]
      rw [readMapItems]
      simp only [List.append_assoc, List.length_append, Nat.add_assoc]
        at hsk0 hsk1 hf2 ⊢
      rw [hsk0, DRes.bind_ok, hsk1, DRes.bind_ok]
      have hv0 := hf0 fuel (by omega)
      simp only [List.append_assoc] at hv0
      rw [hv0, DRes.bind_ok]
      have hv1f := hf1 fuel (by omega)
      simp only [List.append_assoc, List.length_append, Nat.add_assoc] at hv1f
      rw [hv1f, DRes.bind_ok]
      have hm := hf2 fuel (by omega)
      rw [hm, DRes.bind_ok]

/-- The induction invariant of the round-trip proof: writing `v` from any
encoder state appends some bytes and returns an immediate tied to `v` by
`ImmOK`, within the `cost v` byte budget. -/
def WVOK (v : Value) : Prop :=
  ∀ bs : List Nat, bs.length + cost v < 2 ^ 64 →
    ∃ (D : List Nat) (imm : Immediate),
      writeValueOrImm ⟨bs, bs.length⟩ v
        = (⟨bs ++ D, bs.length + D.length⟩, imm) ∧
      D.length + immCost imm ≤ cost v ∧ ImmOK (bs ++ D) imm v

theorem writeValueList_ok : ∀ (ws : List Value), (∀ w ∈ ws, WVOK w) →
    ∀ bs : List Nat, bs.length + costList ws < 2 ^ 64 →
    ∃ (D : List Nat) (imms : List Immediate),
      writeValueList ⟨bs, bs.length⟩ ws
        = (⟨bs ++ D, bs.length + D.length⟩, imms) ∧
      D.length + (imms.map immCost).sum ≤ costList ws ∧
      List.Forall₂ (fun imm w => ImmOK (bs ++ D) imm w) imms ws := by
  intro ws
  induction ws with
  | nil =>
    intro _ bs hlen
    exact ⟨[], [], by simp [writeValueList], by simp [costList],
      List.Forall₂.nil⟩
  | cons w ws ih =>
    intro hall bs hlen
    rw [costList] at hlen
    obtain ⟨D0, imm0, hw0, hc0, hok0⟩ := hall w (by simp) bs (by omega)
    have hall' : ∀ w ∈ ws, WVOK w := fun x hx => hall x (by simp [hx])
    have hlen1 : (bs ++ D0).length + costList ws < 2 ^ 64 := by
      simp only [List.length_append]
      omega
    obtain ⟨D1, imms1, hw1, hc1, hok1⟩ := ih hall' (bs ++ D0) hlen1
    refine ⟨D0 ++ D1, imm0 :: imms1, ?_, ?_, ?_⟩
    · rw [writeValueList, hw0]
      dsimp only
      have hl0 : bs.length + D0.length = (bs ++ D0).length := by simp
      rw [hl0, hw1]
      have hwq : bs ++ D0 ++ D1 = bs ++ (D0 ++ D1) := by
        simp only [List.append_assoc]
      have hoff : (bs ++ D0).length + D1.length
          = bs.length + (D0 ++ D1).length := by
        simp only [List.length_append]
        omega
      rw [hwq, hoff]
    · rw [costList]
      simp only [List.length_append, List.map_cons, List.sum_cons]
      omega
    · constructor
      · have := ImmOK_append D1 hok0
        rwa [List.append_assoc] at this
      · have : List.Forall₂ (fun imm w => ImmOK (bs ++ D0 ++ D1) imm w)
            imms1 ws := hok1
        rwa [List.append_assoc] at this

theorem writeValueKVs_ok : ∀ (wkvs : List (Value × Value)),
    (∀ kv ∈ wkvs, WVOK kv.1) → (∀ kv ∈ wkvs, WVOK kv.2) →
    ∀ bs : List Nat, bs.length + costKVs wkvs < 2 ^ 64 →
    ∃ (D : List Nat) (kimms : List (Immediate × Immediate)),
      writeValueKVs ⟨bs, bs.length⟩ wkvs
        = (⟨bs ++ D, bs.length + D.length⟩, kimms) ∧
      D.length + (kimms.map (fun ii => immCost ii.1 + immCost ii.2)).sum
        ≤ costKVs wkvs ∧
      List.Forall₂ (fun ii kv => ImmOK (bs ++ D) ii.1 kv.1 ∧
        ImmOK (bs ++ D) ii.2 kv.2) kimms wkvs := by
  intro wkvs
  induction wkvs with
  | nil =>
    intro _ _ bs hlen
    exact ⟨[], [], by simp [writeValueKVs], by simp [costKVs],
      List.Forall₂.nil⟩
  | cons kv wkvs ih =>
    intro hallK hallV bs hlen
    obtain ⟨k, v⟩ := kv
    rw [costKVs] at hlen
    obtain ⟨D0, imm0, hw0, hc0, hok0pre⟩ := hallK (k, v) (by simp) bs
      (by show bs.length + cost k < 2 ^ 64; omega)
    have hc0k : D0.length + immCost imm0 ≤ cost k := hc0
    have hok0 : ImmOK (bs ++ D0) imm0 k := hok0pre
    have hlenv : (bs ++ D0).length + cost v < 2 ^ 64 := by
      simp only [List.length_append]
      omega
    obtain ⟨D1, imm1, hw1, hc1, hok1pre⟩ := hallV (k, v) (by simp) (bs ++ D0)
      (by show (bs ++ D0).length + cost v < 2 ^ 64; exact hlenv)
    have hc1v : D1.length + immCost imm1 ≤ cost v := hc1
    have hok1 : ImmOK (bs ++ D0 ++ D1) imm1 v := hok1pre
    have hlen2 : (bs ++ D0 ++ D1).length + costKVs wkvs < 2 ^ 64 := by
      simp only [List.length_append]
      omega
    obtain ⟨D2, kimms2, hw2, hc2, hok2⟩ := ih
      (fun kv hkv => hallK kv (by simp [hkv]))
      (fun kv hkv => hallV kv (by simp [hkv])) (bs ++ D0 ++ D1) hlen2
    refine ⟨D0 ++ D1 ++ D2, (imm0, imm1) :: kimms2, ?_, ?_, ?_⟩
    · rw [writeValueKVs, hw0]
      dsimp only
      have hl0 : bs.length + D0.length = (bs ++ D0).length := by simp
      rw [hl0, hw1]
      dsimp only
      have hl1 : (bs ++ D0).length + D1.length = (bs ++ D0 ++ D1).length := by
        simp only [List.length_append]
      rw [hl1, hw2]
      have hwq : bs ++ D0 ++ D1 ++ D2 = bs ++ (D0 ++ D1 ++ D2) := by
        simp only [List.append_assoc]
      have hoff : (bs ++ D0 ++ D1).length + D2.length
          = bs.length + (D0 ++ D1 ++ D2).length := by
        simp only [List.length_append]
        omega
      rw [hwq, hoff]
    · rw [costKVs]
      simp only [List.length_append, List.map_cons, List.sum_cons]
      omega
    · constructor
      · constructor
        · have := ImmOK_append D2 (ImmOK_append D1 hok0)
          rwa [List.append_assoc, List.append_assoc,
            ← List.append_assoc D0 D1 D2] at this
        · have := ImmOK_append D2 hok1
          rwa [List.append_assoc, List.append_assoc,
            ← List.append_assoc D0 D1 D2] at this
      · have h2 := hok2
        have heq : bs ++ D0 ++ D1 ++ D2 = bs ++ (D0 ++ D1 ++ D2) := by
          simp only [List.append_assoc]
        rw [heq] at h2
        exact h2

/-- Master lemma: every tree of the generator grammar satisfies the writer
invariant. -/
theorem genValue_WVOK {v : Value} (hg : GenValue v) : WVOK v := by
  induction hg with
  | null =>
    intro bs hb
    exact ⟨[], .null, by simp [writeValueOrImm], by simp [immCost, cost],
      by simpa [ImmOK] using rfl⟩
  | bool b =>
    intro bs hb
    exact ⟨[], .bool b, by simp [writeValueOrImm], by simp [immCost, cost],
      by simpa [ImmOK] using rfl⟩
  | int64 i hlo hhi =>
    intro bs hb
    exact ⟨[], .int64 i, by simp [writeValueOrImm], by simp [immCost, cost],
      by simpa [ImmOK] using ⟨hlo, hhi⟩⟩
  | float bits hbits =>
    intro bs hb
    exact ⟨[], .float bits, by simp [writeValueOrImm], by simp [immCost, cost],
      by simpa [ImmOK] using hbits⟩
  | string s hutf hslen =>
    intro bs hb
    refine ⟨[], .string s, by simp [writeValueOrImm], by simp [immCost, cost],
      ?_⟩
    have : ImmOK bs (.string s) (.string s)
        = (Value.string s = Value.string s ∧ utf8Valid s = true ∧
            s.length ≤ 2 ^ 32 - 1) := rfl
    simp only [List.append_nil]
    rw [this]
    refine ⟨rfl, hutf, by norm_num at hslen ⊢; omega⟩
  | array vs hlen10 hmem ih =>
    intro bs hb
    have hcost : cost (.array vs) = 24 + costList vs := rfl
    rw [hcost] at hb
    obtain ⟨D1, imms, hwL, hcL, hokL⟩ := writeValueList_ok vs ih bs (by omega)
    have hmlen : imms.length = vs.length := List.Forall₂.length_eq hokL
    have hm15 : imms.length < 15 := by omega
    set c : Nat := 16 * 6 + imms.length with hc
    have hokL' : List.Forall₂
        (fun imm w => ImmOK (bs ++ D1 ++ [c]) imm w) imms vs :=
      List.Forall₂.imp (fun a b hab => ImmOK_append [c] hab) hokL
    have hlen2 : (bs ++ D1 ++ [c]).length + (imms.map immCost).sum
        < 2 ^ 64 := by
      simp only [List.length_append, List.length_singleton]
      omega
    obtain ⟨D2, hwI, hlenI, hreadI⟩ :=
      writeImms_ok imms vs (bs ++ D1 ++ [c]) hokL' hlen2
    refine ⟨D1 ++ [c] ++ D2, .pointer (bs.length + D1.length), ?_, ?_, ?_, ?_⟩
    · rw [writeValueOrImm]
      rw [hwL]
      dsimp only
      have hl1 : bs.length + D1.length = (bs ++ D1).length := by simp
      rw [writeArray, hl1, firstByteAndU64, if_pos hm15, firstByteE]
      dsimp only
      have hl2 : (bs ++ D1).length + 1 = (bs ++ D1 ++ [c]).length := by
        simp only [List.length_append, List.length_singleton]
      rw [hl2, hwI]
      have hwq : bs ++ D1 ++ [c] ++ D2 = bs ++ (D1 ++ [c] ++ D2) := by
        simp only [List.append_assoc]
      have hoff : (bs ++ D1 ++ [c]).length + D2.length
          = bs.length + (D1 ++ [c] ++ D2).length := by
        simp only [List.length_append, List.length_singleton]
        omega
      rw [hwq, hoff, ← hl1]
    · rw [hcost, immCost]
      simp only [List.length_append, List.length_singleton]
      omega
    · simp only [List.length_append, List.length_singleton]
      omega
    · intro ext
      rw [show bs ++ (D1 ++ [c] ++ D2) ++ ext
          = bs ++ D1 ++ [c] ++ (D2 ++ ext) by simp]
      have hgB : getByte (bs ++ D1 ++ [c] ++ (D2 ++ ext))
          (bs.length + D1.length) = some c := by
        have h0 := getByte_at_length (bs ++ D1) c (D2 ++ ext)
        simp only [List.length_append] at h0
        simpa using h0
      have hc16 : c / 16 = 6 := by omega
      have hclow : c % 16 = imms.length := by omega
      have hgsv : getShallowValue (bs ++ D1 ++ [c] ++ (D2 ++ ext))
          (bs.length + D1.length)
          = .ok (.array ⟨bs.length + D1.length + 1 + 0, imms.length⟩) := by
        rw [getShallowValue, deref_nonptr hgB (by omega), DRes.bind_ok, hgB]
        dsimp only
        rw [hc16]
        rw [if_neg (by norm_num), if_neg (by norm_num), if_neg (by norm_num),
          if_neg (by norm_num), if_neg (by norm_num), if_neg (by norm_num),
          if_pos rfl]
        rw [arrayCursorD, hclow, u64WithLow, if_pos (by omega), DRes.bind_ok,
          if_neg (by omega), DRes.bind_ok]
      obtain ⟨f2, hf2⟩ := hreadI ext
      refine ⟨f2 + 1, fun fuel hf => ?_⟩
      cases fuel with
      | zero => omega
      | succ g =>
        rw [readValue, hgsv, DRes.bind_ok]
        dsimp only
        have hpos : bs.length + D1.length + 1 + 0
            = (bs ++ D1 ++ [c]).length := by
          simp only [List.length_append, List.length_singleton, Nat.add_zero]
        rw [hpos]
        have hr := hf2 g (by omega)
        rw [List.append_assoc (bs ++ D1 ++ [c]) D2 ext] at hr
        rw [hr, DRes.bind_ok]
  | map kvs hlen10 hmemK hmemV ihK ihV =>
    intro bs hb
    have hcost : cost (.map kvs) = 24 + costKVs kvs := rfl
    rw [hcost] at hb
    obtain ⟨D1, kimms, hwL, hcL, hokL⟩ :=
      writeValueKVs_ok kvs ihK ihV bs (by omega)
    have hmlen : kimms.length = kvs.length := List.Forall₂.length_eq hokL
    have hm15 : kimms.length < 15 := by omega
    set c : Nat := 16 * 7 + kimms.length with hc
    have hokL' : List.Forall₂
        (fun ii kv => ImmOK (bs ++ D1 ++ [c]) ii.1 kv.1 ∧
          ImmOK (bs ++ D1 ++ [c]) ii.2 kv.2) kimms kvs :=
      List.Forall₂.imp
        (fun a b hab => ⟨ImmOK_append [c] hab.1, ImmOK_append [c] hab.2⟩) hokL
    have hlen2 : (bs ++ D1 ++ [c]).length
        + (kimms.map (fun ii => immCost ii.1 + immCost ii.2)).sum
        < 2 ^ 64 := by
      simp only [List.length_append, List.length_singleton]
      omega
    obtain ⟨D2, hwI, hlenI, hreadI⟩ :=
      writeImmsKV_ok kimms kvs (bs ++ D1 ++ [c]) hokL' hlen2
    refine ⟨D1 ++ [c] ++ D2, .pointer (bs.length + D1.length), ?_, ?_, ?_, ?_⟩
    · rw [writeValueOrImm]
      rw [hwL]
      dsimp only
      have hl1 : bs.length + D1.length = (bs ++ D1).length := by simp
      rw [writeMap, hl1, firstByteAndU64, if_pos hm15, firstByteE]
      dsimp only
      have hl2 : (bs ++ D1).length + 1 = (bs ++ D1 ++ [c]).length := by
        simp only [List.length_append, List.length_singleton]
      rw [hl2, hwI]
      have hwq : bs ++ D1 ++ [c] ++ D2 = bs ++ (D1 ++ [c] ++ D2) := by
        simp only [List.append_assoc]
      have hoff : (bs ++ D1 ++ [c]).length + D2.length
          = bs.length + (D1 ++ [c] ++ D2).length := by
        simp only [List.length_append, List.length_singleton]
        omega
      rw [hwq, hoff, ← hl1]
    · rw [hcost, immCost]
      simp only [List.length_append, List.length_singleton]
      omega
    · simp only [List.length_append, List.length_singleton]
      omega
    · intro ext
      rw [show bs ++ (D1 ++ [c] ++ D2) ++ ext
          = bs ++ D1 ++ [c] ++ (D2 ++ ext) by simp]
      have hgB : getByte (bs ++ D1 ++ [c] ++ (D2 ++ ext))
          (bs.length + D1.length) = some c := by
        have h0 := getByte_at_length (bs ++ D1) c (D2 ++ ext)
        simp only [List.length_append] at h0
        simpa using h0
      have hc16 : c / 16 = 7 := by omega
      have hclow : c % 16 = kimms.length := by omega
      have hgsv : getShallowValue (bs ++ D1 ++ [c] ++ (D2 ++ ext))
          (bs.length + D1.length)
          = .ok (.map ⟨bs.length + D1.length + 1 + 0, kimms.length⟩) := by
        rw [getShallowValue, deref_nonptr hgB (by omega), DRes.bind_ok, hgB]
        dsimp only
        rw [hc16]
        rw [if_neg (by norm_num), if_neg (by norm_num), if_neg (by norm_num),
          if_neg (by norm_num), if_neg (by norm_num), if_neg (by norm_num),
          if_neg (by norm_num), if_pos rfl]
        rw [mapCursorD, hclow, u64WithLow, if_pos (by omega), DRes.bind_ok,
          if_neg (by omega), DRes.bind_ok]
      obtain ⟨f2, hf2⟩ := hreadI ext
      refine ⟨f2 + 1, fun fuel hf => ?_⟩
      cases fuel with
      | zero => omega
      | succ g =>
        rw [readValue, hgsv, DRes.bind_ok]
        dsimp only
        have hpos : bs.length + D1.length + 1 + 0
            = (bs ++ D1 ++ [c]).length := by
          simp only [List.length_append, List.length_singleton, Nat.add_zero]
        rw [hpos]
        have hr := hf2 g (by omega)
        rw [List.append_assoc (bs ++ D1 ++ [c]) D2 ext] at hr
        rw [hr, DRes.bind_ok]

/-- Byte-cost bound for grammar trees: each node costs at most
`24 + 2 ^ 20` bytes (the string bound dominating). -/
theorem cost_le_vsize {v : Value} (hg : GenValue v) :
    cost v ≤ 1048600 * vsize v := by
  induction hg with
  | null =>
    show (12 : Nat) ≤ 1048600 * 1
    norm_num
  | bool b =>
    show (12 : Nat) ≤ 1048600 * 1
    norm_num
  | int64 i _ _ =>
    show (12 : Nat) ≤ 1048600 * 1
    norm_num
  | float bits _ =>
    show (12 : Nat) ≤ 1048600 * 1
    norm_num
  | string s _ hslen =>
    show 12 + s.length ≤ 1048600 * 1
    have : (2 : Nat) ^ 20 = 1048576 := by norm_num
    omega
  | array vs _ _ ih =>
    rw [show cost (.array vs) = 24 + costList vs from rfl,
      show vsize (.array vs) = 1 + vsizeList vs from rfl]
    have hlist : ∀ ws : List Value, (∀ w ∈ ws, cost w ≤ 1048600 * vsize w) →
        costList ws ≤ 1048600 * vsizeList ws := by
      intro ws
      induction ws with
      | nil => intro _; simp [costList, vsizeList]
      | cons w ws ihw =>
        intro hall
        rw [costList, vsizeList]
        have h1 := hall w (by simp)
        have h2 := ihw (fun x hx => hall x (by simp [hx]))
        have h3 : 1048600 * (vsize w + vsizeList ws)
            = 1048600 * vsize w + 1048600 * vsizeList ws := by ring
        omega
    have := hlist vs ih
    omega
  | map kvs _ _ _ ihK ihV =>
    rw [show cost (.map kvs) = 24 + costKVs kvs from rfl,
      show vsize (.map kvs) = 1 + vsizeKVs kvs from rfl]
    have hlist : ∀ ws : List (Value × Value),
        (∀ w ∈ ws, cost w.1 ≤ 1048600 * vsize w.1) →
        (∀ w ∈ ws, cost w.2 ≤ 1048600 * vsize w.2) →
        costKVs ws ≤ 1048600 * vsizeKVs ws := by
      intro ws
      induction ws with
      | nil => intro _ _; simp [costKVs, vsizeKVs]
      | cons w ws ihw =>
        obtain ⟨k, v⟩ := w
        intro hallK hallV
        rw [costKVs, vsizeKVs]
        have h1 := hallK (k, v) (by simp)
        have h2 := hallV (k, v) (by simp)
        have h3 := ihw (fun x hx => hallK x (by simp [hx]))
          (fun x hx => hallV x (by simp [hx]))
        have h4 : 1048600 * (vsize k + vsize v + vsizeKVs ws)
            = 1048600 * vsize k + 1048600 * vsize v
              + 1048600 * vsizeKVs ws := by ring
        simp only at h1 h2
        omega
    have := hlist kvs ihK ihV
    omega

theorem wIORP_eq_writeImmediate (enc : EncSt) (imm : Immediate)
    (h : ∀ p, imm ≠ .pointer p) :
    writeImmediateOrReturnPointer enc imm = writeImmediate enc imm := by
  cases imm
  case pointer p => exact absurd rfl (h p)
  all_goals rfl

/-- `write_value` appends the encoding of `v` and returns an offset that
reads back as `v` under any extension of the buffer. -/
theorem writeValue_ok (v : Value) (hg : GenValue v) (bs : List Nat)
    (hb : bs.length + cost v < 2 ^ 64) :
    ∃ (D : List Nat) (off : Nat),
      writeValue ⟨bs, bs.length⟩ v = (⟨bs ++ D, bs.length + D.length⟩, off) ∧
      D.length ≤ cost v ∧
      ∀ ext, ReadsAt (bs ++ D ++ ext) off v := by
  obtain ⟨D1, imm, hw, hc, hok⟩ := genValue_WVOK hg bs hb
  by_cases hptr : ∃ p, imm = .pointer p
  · obtain ⟨p, rfl⟩ := hptr
    refine ⟨D1, p, ?_, by rw [immCost] at hc; omega, fun ext => ?_⟩
    · rw [writeValue, hw]
      rfl
    · exact hok.2 ext
  · push_neg at hptr
    have hlen2 : (bs ++ D1).length + immCost imm < 2 ^ 64 := by
      simp only [List.length_append]
      omega
    obtain ⟨D2, hw2, h1le, h2le, hskip2, hread2⟩ :=
      writeImmediate_ok (bs ++ D1) imm v hlen2 hok
    refine ⟨D1 ++ D2, bs.length + D1.length, ?_, ?_, fun ext => ?_⟩
    · rw [writeValue, hw]
      dsimp only
      rw [wIORP_eq_writeImmediate _ _ hptr]
      have hl1 : bs.length + D1.length = (bs ++ D1).length := by simp
      rw [hl1, hw2]
      have hwq : bs ++ D1 ++ D2 = bs ++ (D1 ++ D2) := by
        simp only [List.append_assoc]
      have hoff : (bs ++ D1).length + D2.length
          = bs.length + (D1 ++ D2).length := by
        simp only [List.length_append]
        omega
      rw [hwq, hoff, ← hl1]
    · simp only [List.length_append]
      omega
    · have hr := hread2 ext
      have heq : bs ++ D1 ++ D2 ++ ext = bs ++ (D1 ++ D2) ++ ext := by
        simp only [List.append_assoc]
      rw [heq] at hr
      have hl1 : (bs ++ D1).length = bs.length + D1.length := by simp
      rw [hl1] at hr
      exact hr

/-! ## Claim theorems -/

/-- **C1** — Value round-trip: for every tree `v` drawn from the `Value`
grammar of the crate's round-trip property test (the
`prop_recursive(8, 256, 10)` generator: leaves `Null/Bool/Int64/Float/`
`String`, closed under `Array`/`Map` with fan-out ≤ 10), of depth at most 8
and at most 256 nodes, writing `v` with `write_value` into a fresh encoder
and then calling `read_value` on a decoder over the produced bytes
(`Decoder::new` accepts them), at the offset `write_value` returned, yields
a `Value` equal to `v`. -/
theorem C1_value_roundtrip (v : Value) (hg : GenValue v)
    (hdepth : vdepth v ≤ 8) (hsize : vsize v ≤ 256) :
    decoderNew (writeValue ⟨[], 0⟩ v).1.w = .ok () ∧
    ∃ fuel, readValue (writeValue ⟨[], 0⟩ v).1.w fuel
      (writeValue ⟨[], 0⟩ v).2 = .ok v := by
  have hcost : cost v ≤ 268441600 := by
    have h1 := cost_le_vsize hg
    have h2 : 1048600 * vsize v ≤ 1048600 * 256 :=
      Nat.mul_le_mul_left _ hsize
    omega
  have hb : ([] : List Nat).length + cost v < 2 ^ 64 := by
    simp only [List.length_nil]
    have : (2 : Nat) ^ 64 = 18446744073709551616 := by norm_num
    omega
  obtain ⟨D, off, hw, hD, hread⟩ := writeValue_ok v hg [] hb
  have hw0 : writeValue ⟨[], 0⟩ v = (⟨[] ++ D, 0 + D.length⟩, off) := hw
  rw [hw0]
  constructor
  · dsimp only
    rw [decoderNew, if_neg ?hlt]
    case hlt =>
      simp only [List.nil_append]
      have : (2 : Nat) ^ 32 - 1 = 4294967295 := by norm_num
      omega
  · obtain ⟨fuel0, hf⟩ := hread []
    refine ⟨fuel0, ?_⟩
    dsimp only
    have h1 := hf fuel0 le_rfl
    simpa using h1

/-- Witness for C1 at the concrete tree `Array [Int64 3, String "ab"]`. -/
theorem C1_value_roundtrip_witness :
    GenValue (.array [.int64 3, .string [97, 98]]) ∧
    vdepth (.array [.int64 3, .string [97, 98]]) ≤ 8 ∧
    vsize (.array [.int64 3, .string [97, 98]]) ≤ 256 ∧
    (decoderNew (writeValue ⟨[], 0⟩
        (.array [.int64 3, .string [97, 98]])).1.w = .ok () ∧
      ∃ fuel, readValue (writeValue ⟨[], 0⟩
          (.array [.int64 3, .string [97, 98]])).1.w fuel
        (writeValue ⟨[], 0⟩ (.array [.int64 3, .string [97, 98]])).2
        = .ok (.array [.int64 3, .string [97, 98]])) := by
  have hg : GenValue (.array [.int64 3, .string [97, 98]]) := by
    refine GenValue.array _ (by norm_num) ?_
    intro w hw
    simp only [List.mem_cons, List.mem_singleton, List.not_mem_nil,
      or_false] at hw
    rcases hw with rfl | rfl
    · exact GenValue.int64 3 (by norm_num) (by norm_num)
    · exact GenValue.string [97, 98] (by decide) (by norm_num)
  have hd : vdepth (.array [.int64 3, .string [97, 98]]) ≤ 8 := by
    simp [vdepth, vdepthList]
  have hs : vsize (.array [.int64 3, .string [97, 98]]) ≤ 256 := by
    simp [vsize, vsizeList]
  exact ⟨hg, hd, hs, C1_value_roundtrip _ hg hd hs⟩

/-- A successful shallow read never returns an `Imm Pointer`: every arm of
`get_shallow_value` after the initial `deref` produces a non-pointer
`ShallowValue` (the high-nibble-15 arm is `unreachable!`). -/
theorem getShallowValue_no_pointer {bs : List Nat} {off : Nat}
    {sv : ShallowValue} (h : getShallowValue bs off = .ok sv) :
    ∀ p, sv ≠ .imm (.pointer p) := by
  rw [getShallowValue] at h
  obtain ⟨off2, hd, hrest⟩ := DRes.bind_eq_ok.mp h
  intro p
  cases hB : getByte bs off2 with
  | none =>
    rw [hB] at hrest
    exact absurd hrest (by simp)
  | some c =>
    rw [hB] at hrest
    dsimp only at hrest
    by_cases k0 : c / 16 = 0
    · rw [if_pos k0] at hrest
      by_cases m2 : c % 16 = 2
      · rw [if_pos m2] at hrest
        cases hrest
        simp
      · rw [if_neg m2] at hrest
        by_cases m0 : c % 16 = 0
        · rw [if_pos m0] at hrest
          cases hrest
          simp
        · rw [if_neg m0] at hrest
          by_cases m1 : c % 16 = 1
          · rw [if_pos m1] at hrest
            cases hrest
            simp
          · rw [if_neg m1] at hrest
            exact absurd hrest (by simp)
    · rw [if_neg k0] at hrest
      by_cases k1 : c / 16 = 1
      · rw [if_pos k1] at hrest
        obtain ⟨a, ha, hfa⟩ := DRes.bind_eq_ok.mp hrest
        cases hfa
        simp
      · rw [if_neg k1] at hrest
        by_cases k2 : c / 16 = 2
        · rw [if_pos k2] at hrest
          obtain ⟨a, ha, hfa⟩ := DRes.bind_eq_ok.mp hrest
          cases hfa
          simp
        · rw [if_neg k2] at hrest
          by_cases k3 : c / 16 = 3
          · rw [if_pos k3] at hrest
            obtain ⟨a, ha, hfa⟩ := DRes.bind_eq_ok.mp hrest
            cases hfa
            simp
          · rw [if_neg k3] at hrest
            by_cases k4 : c / 16 = 4
            · rw [if_pos k4] at hrest
              obtain ⟨a, ha, hfa⟩ := DRes.bind_eq_ok.mp hrest
              cases hfa
              simp
            · rw [if_neg k4] at hrest
              by_cases k5 : c / 16 = 5
              · rw [if_pos k5] at hrest
                obtain ⟨a, ha, hfa⟩ := DRes.bind_eq_ok.mp hrest
                cases hfa
                simp
              · rw [if_neg k5] at hrest
                by_cases k6 : c / 16 = 6
                · rw [if_pos k6] at hrest
                  obtain ⟨a, ha, hfa⟩ := DRes.bind_eq_ok.mp hrest
                  cases hfa
                  simp
                · rw [if_neg k6] at hrest
                  by_cases k7 : c / 16 = 7
                  · rw [if_pos k7] at hrest
                    obtain ⟨a, ha, hfa⟩ := DRes.bind_eq_ok.mp hrest
                    cases hfa
                    simp
                  · rw [if_neg k7] at hrest
                    by_cases k8 : c / 16 = 8
                    · rw [if_pos k8] at hrest
                      obtain ⟨a, ha, hfa⟩ := DRes.bind_eq_ok.mp hrest
                      cases hfa
                      simp
                    · rw [if_neg k8] at hrest
                      by_cases k10 : c / 16 = 10 ∨ c / 16 = 11 ∨ c / 16 = 12
                      · rw [if_pos k10] at hrest
                        obtain ⟨a, ha, hfa⟩ := DRes.bind_eq_ok.mp hrest
                        cases hfa
                        simp
                      · rw [if_neg k10] at hrest
                        by_cases k14 : c / 16 = 14
                        · rw [if_pos k14] at hrest
                          obtain ⟨a, ha, hfa⟩ := DRes.bind_eq_ok.mp hrest
                          by_cases hle : (a.1 + 1) % 2 ^ 64 ≤ off2
                          · rw [if_pos hle] at hfa
                            cases hfa
                            simp
                          · rw [if_neg hle] at hfa
                            exact absurd hfa (by simp)
                        · rw [if_neg k14] at hrest
                          by_cases k15 : c / 16 = 15
                          · rw [if_pos k15] at hrest
                            exact absurd hrest (by simp)
                          · rw [if_neg k15] at hrest
                            exact absurd hrest (by simp)

/-- **C3** — Pointer transparency: whenever `get_shallow_value` succeeds at
`off`, it has resolved every `Pointer` indirection via `deref` first (the
resolved offset is a `deref` fixed point at which the same shallow value is
read directly), and the returned `ShallowValue` is never
`Imm (Pointer _)`. -/
theorem C3_pointer_transparency (bs : List Nat) (off : Nat)
    (sv : ShallowValue) (h : getShallowValue bs off = .ok sv) :
    (∃ off2, deref bs off = .ok off2 ∧ deref bs off2 = .ok off2 ∧
      getShallowValue bs off2 = .ok sv) ∧
    ∀ p, sv ≠ .imm (.pointer p) := by
  refine ⟨?_, getShallowValue_no_pointer h⟩
  rw [getShallowValue] at h
  obtain ⟨off2, hd, hrest⟩ := DRes.bind_eq_ok.mp h
  have hd2 := deref_idem hd
  refine ⟨off2, hd, hd2, ?_⟩
  rw [getShallowValue, hd2, DRes.bind_ok]
  exact hrest

/-- Witness for C3 on the one-byte blob `[0x02]` (a `Null` record). -/
theorem C3_pointer_transparency_witness :
    getShallowValue [2] 0 = .ok (.imm .null) ∧
    ((∃ off2, deref [2] 0 = .ok off2 ∧ deref [2] off2 = .ok off2 ∧
        getShallowValue [2] off2 = .ok (.imm .null)) ∧
      ∀ p, ShallowValue.imm .null ≠ .imm (.pointer p)) := by
  have h : getShallowValue [2] 0 = .ok (.imm .null) := by
    simp [getShallowValue, deref, getByte]
  exact ⟨h, C3_pointer_transparency [2] 0 (.imm .null) h⟩

/-- **C5** — LEB128 round-trip: for every `u64` value `n`, `enc_leb128`
emits at most 10 bytes; the decoder's `leb128` reader applied to those bytes
(followed by anything) returns `Ok (n, byte_count)`; and on any buffer the
reader fails exactly when the accumulated shift would reach 64 bits without
a terminating byte, i.e. when the next 10 bytes all exist and all carry the
continuation bit. -/
theorem C5_leb128_roundtrip (n : Nat) (hn : n < 2 ^ 64) :
    (encLeb128 n).length ≤ 10 ∧
    (∀ post, leb128 (encLeb128 n ++ post) 0
      = .ok (n, (encLeb128 n).length)) ∧
    (∀ bs off, (leb128 bs off).isErr = true ↔
      ∀ i < 10, ∃ b, getByte bs (off + i) = some b ∧ ¬ b % 128 = b) := by
  refine ⟨?_, fun post => leb128_encLeb128 n hn post, fun bs off => ?_⟩
  · have h70 : n < 2 ^ (7 * 10) :=
      lt_of_lt_of_le hn (Nat.pow_le_pow_right (by norm_num) (by norm_num))
    exact encLeb128_length_le 10 n (by norm_num) h70
  · have h := leb128go_err_iff bs 64 0 off 0 0 rfl (by norm_num)
    rw [leb128]
    simpa using h

/-- Witness for C5 at `n = 3`. -/
theorem C5_leb128_roundtrip_witness :
    (3 : Nat) < 2 ^ 64 ∧
    ((encLeb128 3).length ≤ 10 ∧
      (∀ post, leb128 (encLeb128 3 ++ post) 0
        = .ok (3, (encLeb128 3).length)) ∧
      (∀ bs off, (leb128 bs off).isErr = true ↔
        ∀ i < 10, ∃ b, getByte bs (off + i) = some b ∧ ¬ b % 128 = b)) :=
  ⟨by norm_num, C5_leb128_roundtrip 3 (by norm_num)⟩

/-- **C7 counterexample** — the scenario's expected bytes are wrong: after
writing "hello" (offset 0) the i64 42 does NOT fit in a single byte `0x1A`
(low nibbles only carry payloads `0..14`; `42 ≥ 15` forces the escape
`0x1F` followed by LEB128 of `42 - 15 = 27`), so the finalized blob is the
nine bytes `[0x45,'h','e','l','l','o',0x1F,0x1B,0x01]`, not an eight-byte
`[0x45,'h','e','l','l','o',0x1A,postfix]`. -/
theorem C7_scenario_counterexample :
    (finalize (writeI64 (writeString ⟨[], 0⟩
        [104, 101, 108, 108, 111]).1 42).1 (.pointer 6)).w
      = [69, 104, 101, 108, 108, 111, 31, 27, 1] ∧
    ((finalize (writeI64 (writeString ⟨[], 0⟩
        [104, 101, 108, 108, 111]).1 42).1 (.pointer 6)).w).length ≠ 8 := by
  have h : (finalize (writeI64 (writeString ⟨[], 0⟩
      [104, 101, 108, 108, 111]).1 42).1 (.pointer 6)).w
      = [69, 104, 101, 108, 108, 111, 31, 27, 1] := by
    simp [finalize, writeImmediateOrReturnPointer, writeI64, writeString,
      firstByteAndU64, firstByteE, encLeb128]
  exact ⟨h, by rw [h]; simp⟩

/-- **C7** (amended) — Scenario "small string and i64": writing the string
"hello" returns offset 0; `write_i64(42)` returns offset 6 and occupies the
TWO bytes `0x1F 0x1B` (header `(1,15)` then LEB128 of `42 - 15 = 27`);
finalizing with a pointer to the i64 appends postfix byte 1, producing
exactly `[0x45,'h','e','l','l','o',0x1F,0x1B,0x01]`; the decoder's
`entrypoint()` resolves to offset 6, where the shallow value `Int64(42)`
is read. -/
theorem C7_scenario_amended :
    (writeString ⟨[], 0⟩ [104, 101, 108, 108, 111]).2 = 0 ∧
    (writeI64 (writeString ⟨[], 0⟩ [104, 101, 108, 108, 111]).1 42).2 = 6 ∧
    (finalize (writeI64 (writeString ⟨[], 0⟩
        [104, 101, 108, 108, 111]).1 42).1 (.pointer 6)).w
      = [69, 104, 101, 108, 108, 111, 31, 27, 1] ∧
    entrypoint [69, 104, 101, 108, 108, 111, 31, 27, 1] = .ok 6 ∧
    getShallowValue [69, 104, 101, 108, 108, 111, 31, 27, 1] 6
      = .ok (.imm (.int64 42)) := by
  refine ⟨by simp [writeString, firstByteAndU64, firstByteE], ?_, ?_, ?_, ?_⟩
  · simp [writeI64, writeString, firstByteAndU64, firstByteE, encLeb128]
  · simp [finalize, writeImmediateOrReturnPointer, writeI64, writeString,
      firstByteAndU64, firstByteE, encLeb128]
  · simp [entrypoint, deref, getByte]
  · simp [getShallowValue, deref, getByte, i64Pos, u64WithLow, leb128,
      leb128go, DRes.bind]

/-- **C8** — the spec's promise that every read operation either succeeds
or returns a recoverable `Error` fails on the code: `entrypoint` on the
empty buffer computes `len - 1 = 0 - 1` and indexes out of bounds;
`get_shallow_value` at offset 0 of the one-byte blob `[0x45]` (a string
header claiming 5 payload bytes) takes the out-of-range slice `&bs[1..6]`;
`skip` at the out-of-range offset 5 indexes `bs[5]` — each a Rust panic
outside the `Result` channel, modelled `.panic`. -/
theorem C8_recoverable_errors_violated :
    entrypoint [] = .panic ∧
    getShallowValue [69] 0 = .panic ∧
    skip [69] 5 = .panic := by
  refine ⟨by simp [entrypoint], ?_, by simp [skip, getByte]⟩
  simp [getShallowValue, deref, getByte, strD, u64WithLow, listSlice]

/-- A successful `u64_with_low` payload is a `u64`. -/
theorem u64WithLow_lt {bs : List Nat} {off low : Nat} {r : Nat × Nat}
    (h : u64WithLow bs off low = .ok r) (hlow : low < 2 ^ 64) :
    r.1 < 2 ^ 64 := by
  rw [u64WithLow] at h
  by_cases hl : low < 15
  · rw [if_pos hl] at h
    cases h
    exact hlow
  · rw [if_neg hl] at h
    obtain ⟨a, ha, hfa⟩ := DRes.bind_eq_ok.mp h
    cases hfa
    exact Nat.mod_lt _ (by norm_num)

/-- A successful `deref` never moves forward. -/
theorem deref_le {bs : List Nat} : ∀ (off r : Nat),
    deref bs off = .ok r → r ≤ off := by
  intro off
  induction off using Nat.strong_induction_on with
  | _ off ih =>
    intro r h
    rw [deref] at h
    cases hB : getByte bs off with
    | none =>
      rw [hB] at h
      exact absurd h (by simp)
    | some c =>
      rw [hB] at h
      dsimp only at h
      by_cases h15 : c / 16 = 15
      · rw [if_pos h15] at h
        cases hu : u64WithLow bs off (c % 16) with
        | ok pc =>
          rw [hu] at h
          dsimp only at h
          by_cases hz : (pc.1 + 1) % 2 ^ 64 = 0
          · rw [dif_pos hz] at h
            exact absurd h (by simp)
          · rw [dif_neg hz] at h
            by_cases hle : (pc.1 + 1) % 2 ^ 64 ≤ off
            · rw [dif_pos hle] at h
              have := ih (off - (pc.1 + 1) % 2 ^ 64) (by omega) r h
              omega
            · rw [dif_neg hle] at h
              exact absurd h (by simp)
        | err e =>
          rw [hu] at h
          exact absurd h (by simp)
        | panic =>
          rw [hu] at h
          exact absurd h (by simp)
        | diverge =>
          rw [hu] at h
          exact absurd h (by simp)
      · rw [if_neg h15] at h
        cases h
        exact le_refl off

/-- **C10 counterexample** — `deref` does NOT always terminate: on the
11-byte blob whose first byte `0xFF` is a pointer with LEB128-encoded delta
`2^64 - 16`, the logical delta is `p = (2^64 - 16) + 15 = 2^64 - 1`, the
release-mode increment `p as Offset + 1` wraps to 0, `off.checked_sub(0)`
succeeds without moving `off`, and the loop runs forever (modelled
`.diverge`). -/
theorem C10_deref_divergence_counterexample :
    deref [255, 240, 255, 255, 255, 255, 255, 255, 255, 255, 1] 0
      = .diverge := by
  simp [deref, u64WithLow, leb128, leb128go, getByte]

/-- **C10** (amended) — a `deref` step at a pointer byte with decoded delta
`p ≠ 2^64 - 1` either strictly decreases the offset (`off ← off - (p+1)`
when `p + 1 ≤ off`) or reports "pointer underflow"; for `p = 2^64 - 1` the
incremented delta wraps and `deref` diverges; and any successful `deref`
lands at or before its starting offset. -/
theorem C10_deref_termination (bs : List Nat) (off c p nb : Nat)
    (hB : getByte bs off = some c) (h15 : c / 16 = 15)
    (hu : u64WithLow bs off (c % 16) = .ok (p, nb)) :
    (p ≠ 2 ^ 64 - 1 →
      (p + 1 ≤ off → deref bs off = deref bs (off - (p + 1)) ∧
        off - (p + 1) < off) ∧
      (off < p + 1 → deref bs off = .err ⟨"pointer underflow", off⟩)) ∧
    (p = 2 ^ 64 - 1 → deref bs off = .diverge) ∧
    (∀ r, deref bs off = .ok r → r ≤ off) := by
  have hP : (2 : Nat) ^ 64 = 18446744073709551616 := by norm_num
  have hp64 : p < 2 ^ 64 := by
    have h16 : c % 16 < 2 ^ 64 :=
      lt_of_lt_of_le (Nat.mod_lt _ (by norm_num)) (by norm_num)
    exact u64WithLow_lt hu h16
  have hstep : deref bs off =
      (if hz : (p + 1) % 2 ^ 64 = 0 then .diverge
       else if hle : (p + 1) % 2 ^ 64 ≤ off then
         deref bs (off - (p + 1) % 2 ^ 64)
       else .err ⟨"pointer underflow", off⟩) := by
    rw [deref, hB]
    dsimp only
    rw [if_pos h15, hu]
  refine ⟨?_, ?_, fun r h => deref_le off r h⟩
  · intro hne
    have hmod : (p + 1) % 2 ^ 64 = p + 1 := Nat.mod_eq_of_lt (by omega)
    constructor
    · intro hle
      rw [hstep, hmod, dif_neg (by omega), dif_pos hle]
      exact ⟨rfl, by omega⟩
    · intro hlt2
      rw [hstep, hmod, dif_neg (by omega), dif_neg (by omega)]
  · intro heq
    have hz : (p + 1) % 2 ^ 64 = 0 := by
      subst heq
      have h1 : (2 : Nat) ^ 64 - 1 + 1 = 2 ^ 64 := by norm_num
      rw [h1, Nat.mod_self]
    rw [hstep, dif_pos hz]

/-- Witness for C10 on the blob `[0x02, 0xF0]`: the pointer byte `0xF0` at
offset 1 has delta 0 and steps back to offset 0. -/
theorem C10_deref_termination_witness :
    getByte [2, 240] 1 = some 240 ∧ 240 / 16 = 15 ∧
    u64WithLow [2, 240] 1 (240 % 16) = .ok (0, 0) ∧
    (((0 : Nat) ≠ 2 ^ 64 - 1 →
        (0 + 1 ≤ 1 → deref [2, 240] 1 = deref [2, 240] (1 - (0 + 1)) ∧
          1 - (0 + 1) < 1) ∧
        (1 < 0 + 1 → deref [2, 240] 1 = .err ⟨"pointer underflow", 1⟩)) ∧
      ((0 : Nat) = 2 ^ 64 - 1 → deref [2, 240] 1 = .diverge) ∧
      (∀ r, deref [2, 240] 1 = .ok r → r ≤ 1)) := by
  refine ⟨by simp [getByte], by norm_num, by simp [u64WithLow], ?_⟩
  exact C10_deref_termination [2, 240] 1 240 0 0 (by simp [getByte])
    (by norm_num) (by simp [u64WithLow])

set_option maxRecDepth 8192 in
set_option maxHeartbeats 800000 in
/-- **C6** — Ref preservation: explicit `Ref` values are caller-visible
data, not indirection.  Writing "hello" (offset 0), "world" (offset 6) and
then the array `[Ref 0, Ref 6]` produces exactly
`[0x45,'h','e','l','l','o',0x45,'w','o','r','l','d',0x62,0xEC,0xE7]` with
the array at offset 12, and reading the array back yields
`Array [Ref 0, Ref 6]`; in general a high-nibble-14 record at offset `off`
with decoded delta `p` (no wrap, in range) shallow-reads as
`Imm (Ref (off - p - 1))`. -/
theorem C6_ref_preservation :
    ((writeString ⟨[], 0⟩ [104, 101, 108, 108, 111]).2 = 0 ∧
      (writeString (writeString ⟨[], 0⟩ [104, 101, 108, 108, 111]).1
        [119, 111, 114, 108, 100]).2 = 6 ∧
      writeValue (writeString (writeString ⟨[], 0⟩
          [104, 101, 108, 108, 111]).1 [119, 111, 114, 108, 100]).1
        (.array [.ref 0, .ref 6])
        = (⟨[69, 104, 101, 108, 108, 111, 69, 119, 111, 114, 108, 100,
            98, 236, 231], 15⟩, 12) ∧
      readValue [69, 104, 101, 108, 108, 111, 69, 119, 111, 114, 108, 100,
        98, 236, 231] 2 12 = .ok (.array [.ref 0, .ref 6])) ∧
    ∀ bs off c p nb, getByte bs off = some c → c / 16 = 14 →
      u64WithLow bs off (c % 16) = .ok (p, nb) → p + 1 < 2 ^ 64 →
      p + 1 ≤ off →
      getShallowValue bs off = .ok (.imm (.ref (off - p - 1))) := by
  constructor
  · have hw : (writeString (writeString ⟨[], 0⟩ [104, 101, 108, 108, 111]).1
        [119, 111, 114, 108, 100]).1
        = ⟨[69, 104, 101, 108, 108, 111, 69, 119, 111, 114, 108, 100],
           12⟩ := by
      simp [writeString, firstByteAndU64, firstByteE]
    have h1 : writeValueList
        ⟨[69, 104, 101, 108, 108, 111, 69, 119, 111, 114, 108, 100], 12⟩
        [Value.ref 0, Value.ref 6]
        = (⟨[69, 104, 101, 108, 108, 111, 69, 119, 111, 114, 108, 100], 12⟩,
           [.ref 0, .ref 6]) := by
      rw [writeValueList, writeValueOrImm, writeValueList, writeValueOrImm,
        writeValueList]
    have h2 : writeValue
        ⟨[69, 104, 101, 108, 108, 111, 69, 119, 111, 114, 108, 100], 12⟩
        (.array [.ref 0, .ref 6])
        = (⟨[69, 104, 101, 108, 108, 111, 69, 119, 111, 114, 108, 100,
             98, 236, 231], 15⟩, 12) := by
      rw [writeValue, writeValueOrImm, h1]
      rfl
    have hs12 : getShallowValue [69, 104, 101, 108, 108, 111, 69, 119, 111,
        114, 108, 100, 98, 236, 231] 12 = .ok (.array ⟨13, 2⟩) := by
      simp [getShallowValue, deref, getByte, arrayCursorD, u64WithLow]
    have hs13 : getShallowValue [69, 104, 101, 108, 108, 111, 69, 119, 111,
        114, 108, 100, 98, 236, 231] 13 = .ok (.imm (.ref 0)) := by
      simp [getShallowValue, deref, getByte, u64WithLow]
    have hs14 : getShallowValue [69, 104, 101, 108, 108, 111, 69, 119, 111,
        114, 108, 100, 98, 236, 231] 14 = .ok (.imm (.ref 6)) := by
      simp [getShallowValue, deref, getByte, u64WithLow]
    have hk13 : skip [69, 104, 101, 108, 108, 111, 69, 119, 111, 114, 108,
        100, 98, 236, 231] 13 = .ok 14 := by
      simp [skip, getByte, u64WithLow]
    have hk14 : skip [69, 104, 101, 108, 108, 111, 69, 119, 111, 114, 108,
        100, 98, 236, 231] 14 = .ok 15 := by
      simp [skip, getByte, u64WithLow]
    refine ⟨rfl, ?_, ?_, ?_⟩
    · simp [writeString, firstByteAndU64, firstByteE]
    · rw [hw]
      exact h2
    · rw [readValue, hs12]
      simp only [DRes.bind_ok]
      rw [readArrayItems, hk13]
      simp only [DRes.bind_ok]
      rw [readValue, hs13]
      simp only [DRes.bind_ok, immToValue]
      rw [readArrayItems, hk14]
      simp only [DRes.bind_ok]
      rw [readValue, hs14]
      simp only [DRes.bind_ok, immToValue]
      rw [readArrayItems]
      simp only [DRes.bind_ok]
  · intro bs off c p nb hB h14 hu hp hle
    have h15 : c / 16 ≠ 15 := by omega
    rw [getShallowValue, deref_nonptr hB h15, DRes.bind_ok, hB]
    dsimp only
    rw [h14]
    rw [if_neg (by norm_num), if_neg (by norm_num), if_neg (by norm_num),
      if_neg (by norm_num), if_neg (by norm_num), if_neg (by norm_num),
      if_neg (by norm_num), if_neg (by norm_num), if_neg (by norm_num),
      if_neg (by norm_num), if_pos rfl, hu, DRes.bind_ok]
    dsimp only
    have hmod : (p + 1) % 2 ^ 64 = p + 1 := Nat.mod_eq_of_lt hp
    rw [hmod, if_pos hle]
    have hsub : off - (p + 1) = off - p - 1 := by omega
    rw [hsub]

/-- Witness for the general part of C6 on the blob `[0x02, 0xE0]`: the ref
byte `0xE0` at offset 1 has delta 0 and reads as `Ref 0`. -/
theorem C6_ref_preservation_witness :
    getByte [2, 224] 1 = some 224 ∧ 224 / 16 = 14 ∧
    u64WithLow [2, 224] 1 (224 % 16) = .ok (0, 0) ∧
    (0 : Nat) + 1 < 2 ^ 64 ∧ (0 : Nat) + 1 ≤ 1 ∧
    getShallowValue [2, 224] 1 = .ok (.imm (.ref (1 - 0 - 1))) := by
  refine ⟨by simp [getByte], by norm_num, by simp [u64WithLow], by norm_num,
    le_refl 1, ?_⟩
  exact C6_ref_preservation.2 [2, 224] 1 224 0 0 (by simp [getByte])
    (by norm_num) (by simp [u64WithLow]) (by norm_num) (le_refl 1)

/-- The offset-returning write operations of `ser.rs::Encoder`: each one
consumes at least one byte of output.  (`write_cstor` returns an
`Immediate`, not an offset, and `write_immediate_or_return_pointer` can
return an old offset without writing — see the counterexample.) -/
inductive WOp where
  | wnull
  | wbool (b : Bool)
  | wi64 (n : Int)
  | wf32 (bits : Nat)
  | wf64 (bits : Nat)
  | wstring (s : List Nat)
  | wbytes (b : List Nat)
  | wcstor0 (c : Nat)
  | wref (p : Nat)
  | wpointer (p : Nat)
  | wtag (t : Nat) (v : Immediate)
  | warray (vs : List Immediate)
  | wmap (kvs : List (Immediate × Immediate))

/-- Dispatch one write operation on the encoder. -/
def applyWOp (enc : EncSt) : WOp → EncSt × Nat
  | .wnull => writeNull enc
  | .wbool b => writeBool enc b
  | .wi64 n => writeI64 enc n
  | .wf32 bits => writeF32 enc bits
  | .wf64 bits => writeF64 enc bits
  | .wstring s => writeString enc s
  | .wbytes b => writeBytes enc b
  | .wcstor0 c => writeCstor0 enc c
  | .wref p => writeRef enc p
  | .wpointer p => writePointer enc p
  | .wtag t v => writeTag enc t v
  | .warray vs => writeArray enc vs
  | .wmap kvs => writeMap enc kvs

/-- The offsets returned by a sequence of write operations. -/
def runOps (enc : EncSt) : List WOp → List Nat
  | [] => []
  | op :: rest => (applyWOp enc op).2 :: runOps (applyWOp enc op).1 rest

/-- `first_byte_and_u64` returns the old offset and advances by ≥ 1. -/
theorem firstByteAndU64_advance (enc : EncSt) (high n : Nat) :
    (firstByteAndU64 enc high n).2 = enc.offset ∧
    enc.offset + 1 ≤ (firstByteAndU64 enc high n).1.offset := by
  rw [firstByteAndU64]
  by_cases h : n < 15
  · rw [if_pos h]
    exact ⟨rfl, by simp [firstByteE]⟩
  · rw [if_neg h]
    exact ⟨rfl, by simp⟩

/-- `write_immediate` never rewinds the offset counter. -/
theorem writeImmediate_advance (enc : EncSt) (imm : Immediate) :
    enc.offset ≤ (writeImmediate enc imm).1.offset := by
  cases imm with
  | null => simp [writeImmediate, writeNull, firstByteE]
  | bool b => simp [writeImmediate, writeBool, firstByteE]
  | int64 i =>
    rw [writeImmediate, writeI64]
    by_cases h : i < 0
    · rw [if_pos h]
      have := (firstByteAndU64_advance enc 2 (-i - 1).toNat).2
      omega
    · rw [if_neg h]
      have := (firstByteAndU64_advance enc 1 i.toNat).2
      omega
  | float f =>
    rw [writeImmediate, writeF64]
    dsimp only [firstByteE]
    omega
  | string s =>
    rw [writeImmediate, writeString]
    dsimp only
    have := (firstByteAndU64_advance enc 4 s.length).2
    omega
  | bytes b =>
    rw [writeImmediate, writeBytes]
    dsimp only
    have := (firstByteAndU64_advance enc 5 b.length).2
    omega
  | cstor0 c =>
    rw [writeImmediate, writeCstor0]
    have := (firstByteAndU64_advance enc 10 c).2
    omega
  | ref p =>
    rw [writeImmediate, writeRef]
    have := (firstByteAndU64_advance enc 14 (enc.offset - p - 1)).2
    omega
  | pointer p =>
    rw [writeImmediate, writePointer]
    have := (firstByteAndU64_advance enc 15 (enc.offset - p - 1)).2
    omega

/-- The element-writing loops never rewind the offset counter. -/
theorem writeImms_advance : ∀ (l : List Immediate) (enc : EncSt),
    enc.offset ≤ (writeImms enc l).offset := by
  intro l
  induction l with
  | nil => intro enc; rw [writeImms]
  | cons v rest ih =>
    intro enc
    rw [writeImms]
    have h1 := writeImmediate_advance enc v
    have h2 := ih (writeImmediate enc v).1
    omega

/-- Every write operation returns the old offset counter and strictly
advances it. -/
theorem applyWOp_spec (enc : EncSt) (op : WOp) :
    (applyWOp enc op).2 = enc.offset ∧
    enc.offset < (applyWOp enc op).1.offset := by
  cases op with
  | wnull => exact ⟨rfl, by simp [applyWOp, writeNull, firstByteE]⟩
  | wbool b => exact ⟨rfl, by simp [applyWOp, writeBool, firstByteE]⟩
  | wi64 n =>
    rw [applyWOp, writeI64]
    by_cases h : n < 0
    · rw [if_pos h]
      have := firstByteAndU64_advance enc 2 (-n - 1).toNat
      exact ⟨this.1, by omega⟩
    · rw [if_neg h]
      have := firstByteAndU64_advance enc 1 n.toNat
      exact ⟨this.1, by omega⟩
  | wf32 bits =>
    rw [applyWOp, writeF32]
    dsimp only [firstByteE]
    exact ⟨rfl, by omega⟩
  | wf64 bits =>
    rw [applyWOp, writeF64]
    dsimp only [firstByteE]
    exact ⟨rfl, by omega⟩
  | wstring s =>
    rw [applyWOp, writeString]
    dsimp only
    have := firstByteAndU64_advance enc 4 s.length
    exact ⟨this.1, by omega⟩
  | wbytes b =>
    rw [applyWOp, writeBytes]
    dsimp only
    have := firstByteAndU64_advance enc 5 b.length
    exact ⟨this.1, by omega⟩
  | wcstor0 c =>
    rw [applyWOp, writeCstor0]
    have := firstByteAndU64_advance enc 10 c
    exact ⟨this.1, this.2⟩
  | wref p =>
    rw [applyWOp, writeRef]
    have := firstByteAndU64_advance enc 14 (enc.offset - p - 1)
    exact ⟨this.1, this.2⟩
  | wpointer p =>
    rw [applyWOp, writePointer]
    have := firstByteAndU64_advance enc 15 (enc.offset - p - 1)
    exact ⟨this.1, this.2⟩
  | wtag t v =>
    rw [applyWOp, writeTag]
    dsimp only
    have h1 := firstByteAndU64_advance enc 8 t
    have h2 := writeImmediate_advance (firstByteAndU64 enc 8 t).1 v
    exact ⟨h1.1, by omega⟩
  | warray vs =>
    rw [applyWOp, writeArray]
    dsimp only
    have h1 := firstByteAndU64_advance enc 6 vs.length
    have h2 := writeImms_advance vs (firstByteAndU64 enc 6 vs.length).1
    exact ⟨h1.1, by omega⟩
  | wmap kvs =>
    rw [applyWOp, writeMap]
    dsimp only
    have h1 := firstByteAndU64_advance enc 7 kvs.length
    have h2 := writeImms_advance (flattenKVs kvs)
      (firstByteAndU64 enc 7 kvs.length).1
    exact ⟨h1.1, by omega⟩

/-- Every offset returned during a run is at least the starting counter. -/
theorem runOps_ge : ∀ (ops : List WOp) (enc : EncSt) (x : Nat),
    x ∈ runOps enc ops → enc.offset ≤ x := by
  intro ops
  induction ops with
  | nil =>
    intro enc x hx
    rw [runOps] at hx
    exact absurd hx (List.not_mem_nil x)
  | cons op rest ih =>
    intro enc x hx
    rw [runOps] at hx
    rcases List.mem_cons.mp hx with rfl | hx2
    · exact le_of_eq (applyWOp_spec enc op).1.symm
    · have h1 := ih (applyWOp enc op).1 x hx2
      have h2 := (applyWOp_spec enc op).2
      omega

/-- **C9 counterexample** — the offsets returned by successive encoder
writes are NOT always strictly increasing: `write_string "hello"` on a
fresh encoder returns offset 0, and a following
`write_immediate_or_return_pointer(Pointer(0))` returns offset 0 again
(writing nothing), so the returned sequence `0, 0` is not strictly
increasing. -/
theorem C9_monotonic_offsets_counterexample :
    (writeString ⟨[], 0⟩ [104, 101, 108, 108, 111]).2 = 0 ∧
    (writeImmediateOrReturnPointer
        (writeString ⟨[], 0⟩ [104, 101, 108, 108, 111]).1 (.pointer 0)).2
      = 0 ∧
    ¬ (writeString ⟨[], 0⟩ [104, 101, 108, 108, 111]).2
        < (writeImmediateOrReturnPointer
            (writeString ⟨[], 0⟩ [104, 101, 108, 108, 111]).1
            (.pointer 0)).2 :=
  ⟨rfl, rfl, by decide⟩

/-- **C9** (amended) — for the offset-returning write operations proper
(null, bool, i64, f32, f64, string, bytes, variant-0, ref, pointer, tag,
array header, map header), each write returns the previous offset counter
and advances it by at least one byte, so the sequence of offsets returned
by any run of such writes is strictly increasing.
(`write_immediate_or_return_pointer` is excluded: on a `Pointer` argument
it returns the pointee's old offset without writing.) -/
theorem C9_monotonic_offsets (enc : EncSt) (ops : List WOp) :
    List.Chain' (fun a b => a < b) (runOps enc ops) := by
  induction ops generalizing enc with
  | nil =>
    rw [runOps]
    exact List.chain'_nil
  | cons op rest ih =>
    rw [runOps, List.chain'_cons']
    constructor
    · intro b hb
      have hbmem : b ∈ runOps (applyWOp enc op).1 rest :=
        List.mem_of_mem_head? hb
      have h1 := runOps_ge rest (applyWOp enc op).1 b hbmem
      have h2 := (applyWOp_spec enc op).2
      have h3 := (applyWOp_spec enc op).1
      omega
    · exact ih (applyWOp enc op).1

/-- Well-formedness of a `finalize` entry immediate: integer payloads lie
in their machine ranges, lengths fit in `u64`, and a `Pointer` targets an
in-range, non-pointer record (which is what the encoder hands out). -/
def entryOK (bs : List Nat) : Immediate → Prop
  | .int64 i => -(2 ^ 63) ≤ i ∧ i < 2 ^ 63
  | .string s => s.length < 2 ^ 64
  | .bytes b => b.length < 2 ^ 64
  | .cstor0 c => c < 2 ^ 64
  | .pointer p => p < bs.length ∧ ∃ c, getByte bs p = some c ∧ c / 16 ≠ 15
  | _ => True

/-- Reading the entrypoint of a blob `pre ++ [d]` whose postfix byte `d`
is in range reduces to dereferencing `pre.length - d - 1`. -/
theorem entrypoint_build (pre : List Nat) (d e : Nat)
    (hd : d + 1 ≤ pre.length)
    (hder : deref (pre ++ [d]) (pre.length - d - 1) = .ok e) :
    entrypoint (pre ++ [d]) = .ok e := by
  rw [entrypoint, if_neg (by simp)]
  have hlen1 : (pre ++ [d]).length - 1 = pre.length := by simp
  rw [hlen1, getByte_at_length]
  dsimp only
  rw [if_pos hd]
  exact hder

/-- `write_immediate` on a non-pointer immediate appends one header
(`hdrBytes`) plus a payload, and returns the old offset. -/
theorem writeImmediate_shape (bs : List Nat) (imm : Immediate)
    (hlen : bs.length < 2 ^ 64) (hok : entryOK bs imm)
    (hnp : ∀ q, imm ≠ .pointer q) :
    ∃ h n rest, writeImmediate ⟨bs, bs.length⟩ imm
        = (⟨bs ++ hdrBytes h n ++ rest,
            bs.length + ((hdrBytes h n).length + rest.length)⟩, bs.length) ∧
      h ≠ 15 ∧ n < 2 ^ 64 ∧
      1 ≤ (hdrBytes h n).length + rest.length ∧
      (hdrBytes h n).length + rest.length ≤ immCost imm := by
  cases imm with
  | null =>
    refine ⟨0, 2, [], ?_, by omega, by norm_num, ?_, ?_⟩
    · simp [writeImmediate, writeNull, firstByteE, hdrBytes]
    · simp [hdrBytes]
    · simp [hdrBytes, immCost]
  | bool b =>
    cases b
    · refine ⟨0, 0, [], ?_, by omega, by norm_num, ?_, ?_⟩
      · simp [writeImmediate, writeBool, firstByteE, hdrBytes]
      · simp [hdrBytes]
      · simp [hdrBytes, immCost]
    · refine ⟨0, 1, [], ?_, by omega, by norm_num, ?_, ?_⟩
      · simp [writeImmediate, writeBool, firstByteE, hdrBytes]
      · simp [hdrBytes]
      · simp [hdrBytes, immCost]
  | int64 i =>
    obtain ⟨hi1, hi2⟩ := hok
    have hA : (2 : Int) ^ 63 = 9223372036854775808 := by norm_num
    have hP : (2 : Nat) ^ 64 = 18446744073709551616 := by norm_num
    by_cases hi : i < 0
    · have hn64 : (-i - 1).toNat < 2 ^ 64 := by omega
      have hL := hdrBytes_length 2 (-i - 1).toNat hn64
      refine ⟨2, (-i - 1).toNat, [], ?_, by omega, hn64, ?_, ?_⟩
      · rw [writeImmediate, writeI64, if_pos hi, firstByteAndU64_eq]
        simp
      · simp only [List.length_nil]
        omega
      · simp only [List.length_nil, immCost]
        omega
    · have hn64 : i.toNat < 2 ^ 64 := by omega
      have hL := hdrBytes_length 1 i.toNat hn64
      refine ⟨1, i.toNat, [], ?_, by omega, hn64, ?_, ?_⟩
      · rw [writeImmediate, writeI64, if_neg hi, firstByteAndU64_eq]
        simp
      · simp only [List.length_nil]
        omega
      · simp only [List.length_nil, immCost]
        omega
  | float f =>
    refine ⟨3, 1, natToLeBytes 8 f, ?_, by omega, by norm_num, ?_, ?_⟩
    · rw [writeImmediate, writeF64]
      dsimp only [firstByteE]
      rw [show hdrBytes 3 1 = [49] from by norm_num [hdrBytes]]
      rw [natToLeBytes_length]
      simp
    · simp [hdrBytes]
    · simp [hdrBytes, natToLeBytes_length, immCost]
  | string s =>
    have hL := hdrBytes_length 4 s.length hok
    refine ⟨4, s.length, s, ?_, by omega, hok, by omega, ?_⟩
    · rw [writeImmediate, writeString]
      rw [firstByteAndU64_eq]
      simp [Nat.add_assoc]
    · simp only [immCost]
      omega
  | bytes b =>
    have hL := hdrBytes_length 5 b.length hok
    refine ⟨5, b.length, b, ?_, by omega, hok, by omega, ?_⟩
    · rw [writeImmediate, writeBytes]
      rw [firstByteAndU64_eq]
      simp [Nat.add_assoc]
    · simp only [immCost]
      omega
  | cstor0 c =>
    have hL := hdrBytes_length 10 c hok
    refine ⟨10, c, [], ?_, by omega, hok, ?_, ?_⟩
    · rw [writeImmediate, writeCstor0, firstByteAndU64_eq]
      simp
    · simp only [List.length_nil]
      omega
    · simp only [List.length_nil, immCost]
      omega
  | ref p =>
    have hn64 : bs.length - p - 1 < 2 ^ 64 := by omega
    have hL := hdrBytes_length 14 (bs.length - p - 1) hn64
    refine ⟨14, bs.length - p - 1, [], ?_, by omega, hn64, ?_, ?_⟩
    · rw [writeImmediate, writeRef]
      dsimp only
      rw [firstByteAndU64_eq]
      simp
    · simp only [List.length_nil]
      omega
    · simp only [List.length_nil, immCost]
      omega
  | pointer p => exact absurd rfl (hnp p)

/-- `finalize` on a non-pointer entry immediate: the entry record lands at
the old buffer end and the entrypoint resolves to it (both postfix
branches). -/
theorem finalize_entrypoint_nonptr (bs : List Nat) (imm : Immediate)
    (hok : entryOK bs imm) (hnp : ∀ q, imm ≠ .pointer q)
    (hlen : bs.length + immCost imm + 13 < 2 ^ 64) :
    ∃ d, d ≤ 250 ∧
      getByte (finalize ⟨bs, bs.length⟩ imm).w
        ((finalize ⟨bs, bs.length⟩ imm).w.length - 1) = some d ∧
      entrypoint (finalize ⟨bs, bs.length⟩ imm).w
        = .ok (writeImmediateOrReturnPointer ⟨bs, bs.length⟩ imm).2 := by
  have hP : (2 : Nat) ^ 64 = 18446744073709551616 := by norm_num
  have hwi := wIORP_eq_writeImmediate ⟨bs, bs.length⟩ imm hnp
  obtain ⟨h, n, rest, heq, hh15, hn, h1le, hcost⟩ :=
    writeImmediate_shape bs imm (by omega) hok hnp
  rw [hwi, heq]
  by_cases hdel : (hdrBytes h n).length + rest.length - 1 ≤ 250
  · have hF : finalize ⟨bs, bs.length⟩ imm
        = ⟨(bs ++ hdrBytes h n ++ rest)
            ++ [(hdrBytes h n).length + rest.length - 1],
           bs.length + ((hdrBytes h n).length + rest.length) + 1⟩ := by
      rw [finalize, hwi, heq]
      dsimp only
      rw [if_neg (by omega)]
      have h5 : bs.length + ((hdrBytes h n).length + rest.length)
          - bs.length - 1 = (hdrBytes h n).length + rest.length - 1 := by
        omega
      rw [h5, Nat.mod_eq_of_lt (by omega)]
    rw [hF]
    refine ⟨(hdrBytes h n).length + rest.length - 1, hdel, ?_, ?_⟩
    · have h1 : ((bs ++ hdrBytes h n ++ rest)
          ++ [(hdrBytes h n).length + rest.length - 1]).length - 1
          = (bs ++ hdrBytes h n ++ rest).length := by
        simp only [List.length_append, List.length_cons, List.length_nil]
        omega
      rw [h1, getByte_at_length]
    · apply entrypoint_build
      · simp only [List.length_append]
        omega
      · have h2 : (bs ++ hdrBytes h n ++ rest).length
            - ((hdrBytes h n).length + rest.length - 1) - 1 = bs.length := by
          simp only [List.length_append]
          omega
        rw [h2, List.append_assoc]
        obtain ⟨c2, hB2, hch, _⟩ := hdr_getByte h n bs
          (rest ++ [(hdrBytes h n).length + rest.length - 1])
        exact deref_nonptr hB2 (by rw [hch]; exact hh15)
  · have hn2 : (hdrBytes h n).length + rest.length - 1 < 2 ^ 64 := by omega
    have hL2 := hdrBytes_length 15
      ((hdrBytes h n).length + rest.length - 1) hn2
    have hF : finalize ⟨bs, bs.length⟩ imm
        = ⟨((bs ++ hdrBytes h n ++ rest)
              ++ hdrBytes 15 ((hdrBytes h n).length + rest.length - 1))
            ++ [(hdrBytes 15
                  ((hdrBytes h n).length + rest.length - 1)).length - 1],
           bs.length + ((hdrBytes h n).length + rest.length)
             + (hdrBytes 15
                 ((hdrBytes h n).length + rest.length - 1)).length + 1⟩ := by
      rw [finalize, hwi, heq]
      dsimp only
      rw [if_pos (by omega)]
      rw [writePointer]
      dsimp only
      have h5 : bs.length + ((hdrBytes h n).length + rest.length)
          - bs.length - 1 = (hdrBytes h n).length + rest.length - 1 := by
        omega
      rw [h5, firstByteAndU64_eq]
      dsimp only
      have h6 : bs.length + ((hdrBytes h n).length + rest.length)
          + (hdrBytes 15 ((hdrBytes h n).length + rest.length - 1)).length
          - (bs.length + ((hdrBytes h n).length + rest.length)) - 1
          = (hdrBytes 15
              ((hdrBytes h n).length + rest.length - 1)).length - 1 := by
        omega
      rw [h6, Nat.mod_eq_of_lt (by omega)]
    rw [hF]
    refine ⟨(hdrBytes 15
        ((hdrBytes h n).length + rest.length - 1)).length - 1,
      by omega, ?_, ?_⟩
    · have h1 : (((bs ++ hdrBytes h n ++ rest)
          ++ hdrBytes 15 ((hdrBytes h n).length + rest.length - 1))
          ++ [(hdrBytes 15
                ((hdrBytes h n).length + rest.length - 1)).length - 1]).length
          - 1
          = ((bs ++ hdrBytes h n ++ rest)
              ++ hdrBytes 15
                ((hdrBytes h n).length + rest.length - 1)).length := by
        simp only [List.length_append, List.length_cons, List.length_nil]
        omega
      rw [h1, getByte_at_length]
    · apply entrypoint_build
      · simp only [List.length_append]
        omega
      · have h2 : ((bs ++ hdrBytes h n ++ rest)
            ++ hdrBytes 15 ((hdrBytes h n).length + rest.length - 1)).length
            - ((hdrBytes 15
                ((hdrBytes h n).length + rest.length - 1)).length - 1) - 1
            = (bs ++ hdrBytes h n ++ rest).length := by
          simp only [List.length_append]
          omega
        rw [h2]
        obtain ⟨c2, hB2, hch2, hcl2⟩ := hdr_getByte 15
          ((hdrBytes h n).length + rest.length - 1)
          (bs ++ hdrBytes h n ++ rest)
          [(hdrBytes 15 ((hdrBytes h n).length + rest.length - 1)).length - 1]
        rw [deref, hB2]
        dsimp only
        rw [if_pos hch2]
        have hl15 : c2 % 16 = 15 := by rw [hcl2, if_neg (by omega)]
        rw [hl15]
        have hu := hdr_u64WithLow 15
          ((hdrBytes h n).length + rest.length - 1) hn2
          (bs ++ hdrBytes h n ++ rest)
          [(hdrBytes 15 ((hdrBytes h n).length + rest.length - 1)).length - 1]
        rw [if_neg (by omega)] at hu
        rw [hu]
        dsimp only
        rw [Nat.mod_eq_of_lt (by omega)]
        rw [dif_neg (by omega),
          dif_pos (by simp only [List.length_append]; omega)]
        have h4 : (bs ++ hdrBytes h n ++ rest).length
            - ((hdrBytes h n).length + rest.length - 1 + 1) = bs.length := by
          simp only [List.length_append]
          omega
        rw [h4, List.append_assoc, List.append_assoc]
        obtain ⟨c3, hB3, hch3, _⟩ := hdr_getByte h n bs
          (rest ++ (hdrBytes 15 ((hdrBytes h n).length + rest.length - 1)
            ++ [(hdrBytes 15
                  ((hdrBytes h n).length + rest.length - 1)).length - 1]))
        exact deref_nonptr hB3 (by rw [hch3]; exact hh15)

/-- **C2** — Postfix invariant: finalizing an encoder whose counter matches
its buffer, on a well-formed entry immediate, appends a postfix byte
`d ≤ 250` (when the natural delta exceeds 250, an explicit pointer is
written first and the delta recomputed against it), and the decoder's
`entrypoint()` — `deref (len - 2 - d)` — succeeds and returns exactly the
offset at which the entry value sits (`write_immediate_or_return_pointer`'s
returned offset). -/
theorem C2_finalize_entrypoint (bs : List Nat) (entry : Immediate)
    (hok : entryOK bs entry)
    (hlen : bs.length + immCost entry + 13 < 2 ^ 64) :
    ∃ d, d ≤ 250 ∧
      getByte (finalize ⟨bs, bs.length⟩ entry).w
        ((finalize ⟨bs, bs.length⟩ entry).w.length - 1) = some d ∧
      entrypoint (finalize ⟨bs, bs.length⟩ entry).w
        = .ok (writeImmediateOrReturnPointer ⟨bs, bs.length⟩ entry).2 := by
  cases entry with
  | pointer p =>
    obtain ⟨hp, c, hB, hc⟩ := hok
    have hP : (2 : Nat) ^ 64 = 18446744073709551616 := by norm_num
    simp only [immCost] at hlen
    have hr : writeImmediateOrReturnPointer ⟨bs, bs.length⟩ (.pointer p)
        = (⟨bs, bs.length⟩, p) := rfl
    rw [hr]
    dsimp only
    by_cases hdel : bs.length - p - 1 ≤ 250
    · have hF : finalize ⟨bs, bs.length⟩ (.pointer p)
          = ⟨bs ++ [bs.length - p - 1], bs.length + 1⟩ := by
        rw [finalize, hr]
        dsimp only
        rw [if_neg (by omega), Nat.mod_eq_of_lt (by omega)]
      rw [hF]
      dsimp only
      refine ⟨bs.length - p - 1, hdel, ?_, ?_⟩
      · have h1 : (bs ++ [bs.length - p - 1]).length - 1 = bs.length := by
          simp
        rw [h1, getByte_at_length]
      · apply entrypoint_build
        · omega
        · have h2 : bs.length - (bs.length - p - 1) - 1 = p := by omega
          rw [h2]
          exact deref_nonptr (getByte_append_left hB) hc
    · have hδ : bs.length - p - 1 < 2 ^ 64 := by omega
      have hL := hdrBytes_length 15 (bs.length - p - 1) hδ
      have hF : finalize ⟨bs, bs.length⟩ (.pointer p)
          = ⟨(bs ++ hdrBytes 15 (bs.length - p - 1))
              ++ [(hdrBytes 15 (bs.length - p - 1)).length - 1],
             bs.length + (hdrBytes 15 (bs.length - p - 1)).length + 1⟩ := by
        rw [finalize, hr]
        dsimp only
        rw [if_pos (by omega)]
        rw [writePointer]
        dsimp only
        rw [firstByteAndU64_eq]
        dsimp only
        have h6 : bs.length + (hdrBytes 15 (bs.length - p - 1)).length
            - bs.length - 1
            = (hdrBytes 15 (bs.length - p - 1)).length - 1 := by omega
        rw [h6, Nat.mod_eq_of_lt (by omega)]
      rw [hF]
      dsimp only
      refine ⟨(hdrBytes 15 (bs.length - p - 1)).length - 1, by omega, ?_, ?_⟩
      · have h1 : ((bs ++ hdrBytes 15 (bs.length - p - 1))
            ++ [(hdrBytes 15 (bs.length - p - 1)).length - 1]).length - 1
            = (bs ++ hdrBytes 15 (bs.length - p - 1)).length := by simp
        rw [h1, getByte_at_length]
      · apply entrypoint_build
        · simp only [List.length_append]
          omega
        · have h2 : (bs ++ hdrBytes 15 (bs.length - p - 1)).length
              - ((hdrBytes 15 (bs.length - p - 1)).length - 1) - 1
              = bs.length := by
            simp only [List.length_append]
            omega
          rw [h2]
          obtain ⟨c2, hB2, hch2, hcl2⟩ := hdr_getByte 15 (bs.length - p - 1)
            bs [(hdrBytes 15 (bs.length - p - 1)).length - 1]
          rw [deref, hB2]
          dsimp only
          rw [if_pos hch2]
          have hl15 : c2 % 16 = 15 := by rw [hcl2, if_neg (by omega)]
          rw [hl15]
          have hu := hdr_u64WithLow 15 (bs.length - p - 1) hδ bs
            [(hdrBytes 15 (bs.length - p - 1)).length - 1]
          rw [if_neg (by omega)] at hu
          rw [hu]
          dsimp only
          rw [Nat.mod_eq_of_lt (by omega)]
          rw [dif_neg (by omega), dif_pos (by omega)]
          have h4 : bs.length - (bs.length - p - 1 + 1) = p := by omega
          rw [h4]
          exact deref_nonptr
            (getByte_append_left (getByte_append_left hB)) hc
  | null =>
    exact finalize_entrypoint_nonptr bs .null hok (by intro q; simp) hlen
  | bool b =>
    exact finalize_entrypoint_nonptr bs (.bool b) hok (by intro q; simp) hlen
  | int64 i =>
    exact finalize_entrypoint_nonptr bs (.int64 i) hok (by intro q; simp)
      hlen
  | float f =>
    exact finalize_entrypoint_nonptr bs (.float f) hok (by intro q; simp)
      hlen
  | string s =>
    exact finalize_entrypoint_nonptr bs (.string s) hok (by intro q; simp)
      hlen
  | bytes b =>
    exact finalize_entrypoint_nonptr bs (.bytes b) hok (by intro q; simp)
      hlen
  | cstor0 c =>
    exact finalize_entrypoint_nonptr bs (.cstor0 c) hok (by intro q; simp)
      hlen
  | ref p =>
    exact finalize_entrypoint_nonptr bs (.ref p) hok (by intro q; simp) hlen

/-- Witness for C2 on the one-byte buffer `[0x02]` (a `Null` record at
offset 0) finalized with `Pointer 0`. -/
theorem C2_finalize_entrypoint_witness :
    entryOK [2] (.pointer 0) ∧
    ([2] : List Nat).length + immCost (.pointer 0) + 13 < 2 ^ 64 ∧
    ∃ d, d ≤ 250 ∧
      getByte (finalize ⟨[2], ([2] : List Nat).length⟩ (.pointer 0)).w
        ((finalize ⟨[2], ([2] : List Nat).length⟩ (.pointer 0)).w.length - 1)
        = some d ∧
      entrypoint (finalize ⟨[2], ([2] : List Nat).length⟩ (.pointer 0)).w
        = .ok (writeImmediateOrReturnPointer
            ⟨[2], ([2] : List Nat).length⟩ (.pointer 0)).2 := by
  have hok : entryOK [2] (.pointer 0) :=
    ⟨by norm_num, 2, by simp [getByte], by norm_num⟩
  exact ⟨hok, by norm_num [immCost],
    C2_finalize_entrypoint [2] (.pointer 0) hok (by norm_num [immCost])⟩

/-- `skip` over a header-only record (highs 1, 2, 10, 14, 15) lands right
after the header. -/
theorem skip_hdr_u64 (pre post : List Nat) (h n : Nat) (hn : n < 2 ^ 64)
    (hh : h = 1 ∨ h = 2 ∨ h = 10 ∨ h = 14 ∨ h = 15) :
    skip (pre ++ hdrBytes h n ++ post) pre.length
      = .ok (pre.length + (hdrBytes h n).length) := by
  obtain ⟨c, hB, hch, hcl⟩ := hdr_getByte h n pre post
  have hu := hdr_u64WithLow h n hn pre post
  have hL := hdrBytes_length h n hn
  rw [skip, hB]
  dsimp only
  rcases hh with rfl | rfl | rfl | rfl | rfl
  · rw [hch]
    rw [if_neg (by norm_num), if_pos (by norm_num), hcl, hu, DRes.bind_ok]
    dsimp only
    rw [show pre.length + 1 + ((hdrBytes 1 n).length - 1)
      = pre.length + (hdrBytes 1 n).length from by omega]
  · rw [hch]
    rw [if_neg (by norm_num), if_pos (by norm_num), hcl, hu, DRes.bind_ok]
    dsimp only
    rw [show pre.length + 1 + ((hdrBytes 2 n).length - 1)
      = pre.length + (hdrBytes 2 n).length from by omega]
  · rw [hch]
    rw [if_neg (by norm_num), if_neg (by norm_num), if_neg (by norm_num),
      if_neg (by norm_num), if_neg (by norm_num), if_neg (by norm_num),
      if_pos (by norm_num), hcl, hu, DRes.bind_ok]
    dsimp only
    rw [show pre.length + 1 + ((hdrBytes 10 n).length - 1)
      = pre.length + (hdrBytes 10 n).length from by omega]
  · rw [hch]
    rw [if_neg (by norm_num), if_neg (by norm_num), if_neg (by norm_num),
      if_neg (by norm_num), if_neg (by norm_num), if_neg (by norm_num),
      if_neg (by norm_num), if_neg (by norm_num), if_pos (by norm_num),
      hcl, hu, DRes.bind_ok]
    dsimp only
    rw [show pre.length + 1 + ((hdrBytes 14 n).length - 1)
      = pre.length + (hdrBytes 14 n).length from by omega]
  · rw [hch]
    rw [if_neg (by norm_num), if_neg (by norm_num), if_neg (by norm_num),
      if_neg (by norm_num), if_neg (by norm_num), if_neg (by norm_num),
      if_neg (by norm_num), if_neg (by norm_num), if_pos (by norm_num),
      hcl, hu, DRes.bind_ok]
    dsimp only
    rw [show pre.length + 1 + ((hdrBytes 15 n).length - 1)
      = pre.length + (hdrBytes 15 n).length from by omega]

/-- `skip` over a length-prefixed record (string high 4, bytes high 5)
lands right after the payload. -/
theorem skip_hdr_len (pre s post : List Nat) (h : Nat)
    (hn : s.length < 2 ^ 64) (h32 : s.length ≤ 2 ^ 32 - 1)
    (hh : h = 4 ∨ h = 5) :
    skip (pre ++ hdrBytes h s.length ++ (s ++ post)) pre.length
      = .ok (pre.length + (hdrBytes h s.length).length + s.length) := by
  obtain ⟨c, hB, hch, hcl⟩ := hdr_getByte h s.length pre (s ++ post)
  have hu := hdr_u64WithLow h s.length hn pre (s ++ post)
  have hL := hdrBytes_length h s.length hn
  rcases hh with rfl | rfl
  · rw [skip, hB]
    dsimp only
    rw [hch]
    rw [if_neg (by norm_num), if_neg (by norm_num), if_neg (by norm_num),
      if_pos (by norm_num), hcl, hu, DRes.bind_ok]
    dsimp only
    rw [if_neg (by omega)]
    rw [show pre.length + 1 + ((hdrBytes 4 s.length).length - 1) + s.length
      = pre.length + (hdrBytes 4 s.length).length + s.length from by omega]
  · rw [skip, hB]
    dsimp only
    rw [hch]
    rw [if_neg (by norm_num), if_neg (by norm_num), if_neg (by norm_num),
      if_pos (by norm_num), hcl, hu, DRes.bind_ok]
    dsimp only
    rw [if_neg (by omega)]
    rw [show pre.length + 1 + ((hdrBytes 5 s.length).length - 1) + s.length
      = pre.length + (hdrBytes 5 s.length).length + s.length from by omega]

/-- **C4** — Skip correctness: for every immediate value written by an
encoder writer (null, bool, i64, f32, f64, string, bytes, variant-0, ref,
pointer) at the end of a buffer, `skip` at the returned offset yields
exactly the offset after the value's encoding (under any buffer
extension); and `skip` at a byte whose high nibble denotes array (6),
map (7), tag (8) or a variant with arguments (11, 12) is an error. -/
theorem C4_skip_correctness :
    (∀ (bs ext : List Nat),
      skip ((writeNull ⟨bs, bs.length⟩).1.w ++ ext)
        (writeNull ⟨bs, bs.length⟩).2
        = .ok (writeNull ⟨bs, bs.length⟩).1.offset) ∧
    (∀ (bs ext : List Nat) (b : Bool),
      skip ((writeBool ⟨bs, bs.length⟩ b).1.w ++ ext)
        (writeBool ⟨bs, bs.length⟩ b).2
        = .ok (writeBool ⟨bs, bs.length⟩ b).1.offset) ∧
    (∀ (bs ext : List Nat) (n : Int), -(2 ^ 63) ≤ n → n < 2 ^ 63 →
      skip ((writeI64 ⟨bs, bs.length⟩ n).1.w ++ ext)
        (writeI64 ⟨bs, bs.length⟩ n).2
        = .ok (writeI64 ⟨bs, bs.length⟩ n).1.offset) ∧
    (∀ (bs ext : List Nat) (bits : Nat),
      skip ((writeF32 ⟨bs, bs.length⟩ bits).1.w ++ ext)
        (writeF32 ⟨bs, bs.length⟩ bits).2
        = .ok (writeF32 ⟨bs, bs.length⟩ bits).1.offset) ∧
    (∀ (bs ext : List Nat) (bits : Nat),
      skip ((writeF64 ⟨bs, bs.length⟩ bits).1.w ++ ext)
        (writeF64 ⟨bs, bs.length⟩ bits).2
        = .ok (writeF64 ⟨bs, bs.length⟩ bits).1.offset) ∧
    (∀ (bs ext s : List Nat), s.length ≤ 2 ^ 32 - 1 →
      skip ((writeString ⟨bs, bs.length⟩ s).1.w ++ ext)
        (writeString ⟨bs, bs.length⟩ s).2
        = .ok (writeString ⟨bs, bs.length⟩ s).1.offset) ∧
    (∀ (bs ext b : List Nat), b.length ≤ 2 ^ 32 - 1 →
      skip ((writeBytes ⟨bs, bs.length⟩ b).1.w ++ ext)
        (writeBytes ⟨bs, bs.length⟩ b).2
        = .ok (writeBytes ⟨bs, bs.length⟩ b).1.offset) ∧
    (∀ (bs ext : List Nat) (c : Nat), c < 2 ^ 64 →
      skip ((writeCstor0 ⟨bs, bs.length⟩ c).1.w ++ ext)
        (writeCstor0 ⟨bs, bs.length⟩ c).2
        = .ok (writeCstor0 ⟨bs, bs.length⟩ c).1.offset) ∧
    (∀ (bs ext : List Nat) (p : Nat), bs.length < 2 ^ 64 →
      skip ((writeRef ⟨bs, bs.length⟩ p).1.w ++ ext)
        (writeRef ⟨bs, bs.length⟩ p).2
        = .ok (writeRef ⟨bs, bs.length⟩ p).1.offset) ∧
    (∀ (bs ext : List Nat) (p : Nat), bs.length < 2 ^ 64 →
      skip ((writePointer ⟨bs, bs.length⟩ p).1.w ++ ext)
        (writePointer ⟨bs, bs.length⟩ p).2
        = .ok (writePointer ⟨bs, bs.length⟩ p).1.offset) ∧
    (∀ (bs2 : List Nat) (off c : Nat), getByte bs2 off = some c →
      c / 16 = 6 ∨ c / 16 = 7 ∨ c / 16 = 8 ∨ c / 16 = 11 ∨ c / 16 = 12 →
      ∃ e, skip bs2 off = .err e) := by
  refine ⟨?_, ?_, ?_, ?_, ?_, ?_, ?_, ?_, ?_, ?_, ?_⟩
  · intro bs ext
    have heq : writeNull ⟨bs, bs.length⟩
        = (⟨bs ++ [2], bs.length + 1⟩, bs.length) := rfl
    rw [heq]
    dsimp only
    have hB : getByte ((bs ++ [2]) ++ ext) bs.length = some 2 :=
      getByte_append_left (getByte_at_length bs 2 [])
    rw [skip, hB]
    dsimp only
    rw [if_pos (by norm_num)]
  · intro bs ext b
    cases b
    · have heq : writeBool ⟨bs, bs.length⟩ false
          = (⟨bs ++ [0], bs.length + 1⟩, bs.length) := rfl
      rw [heq]
      dsimp only
      have hB : getByte ((bs ++ [0]) ++ ext) bs.length = some 0 :=
        getByte_append_left (getByte_at_length bs 0 [])
      rw [skip, hB]
      dsimp only
      rw [if_pos (by norm_num)]
    · have heq : writeBool ⟨bs, bs.length⟩ true
          = (⟨bs ++ [1], bs.length + 1⟩, bs.length) := rfl
      rw [heq]
      dsimp only
      have hB : getByte ((bs ++ [1]) ++ ext) bs.length = some 1 :=
        getByte_append_left (getByte_at_length bs 1 [])
      rw [skip, hB]
      dsimp only
      rw [if_pos (by norm_num)]
  · intro bs ext n h1 h2
    have hA : (2 : Int) ^ 63 = 9223372036854775808 := by norm_num
    have hP : (2 : Nat) ^ 64 = 18446744073709551616 := by norm_num
    rw [writeI64]
    by_cases hneg : n < 0
    · rw [if_pos hneg, firstByteAndU64_eq]
      dsimp only
      exact skip_hdr_u64 bs ext 2 (-n - 1).toNat (by omega) (by decide)
    · rw [if_neg hneg, firstByteAndU64_eq]
      dsimp only
      exact skip_hdr_u64 bs ext 1 n.toNat (by omega) (by decide)
  · intro bs ext bits
    have heq : writeF32 ⟨bs, bs.length⟩ bits
        = (⟨(bs ++ [48]) ++ natToLeBytes 4 bits, bs.length + 1 + 4⟩,
           bs.length) := rfl
    rw [heq]
    dsimp only
    have hB : getByte (((bs ++ [48]) ++ natToLeBytes 4 bits) ++ ext)
        bs.length = some 48 :=
      getByte_append_left (getByte_append_left (getByte_at_length bs 48 []))
    rw [skip, hB]
    dsimp only
    rw [if_neg (by norm_num), if_neg (by norm_num), if_pos (by norm_num),
      if_pos (by norm_num)]
  · intro bs ext bits
    have heq : writeF64 ⟨bs, bs.length⟩ bits
        = (⟨(bs ++ [49]) ++ natToLeBytes 8 bits, bs.length + 1 + 8⟩,
           bs.length) := rfl
    rw [heq]
    dsimp only
    have hB : getByte (((bs ++ [49]) ++ natToLeBytes 8 bits) ++ ext)
        bs.length = some 49 :=
      getByte_append_left (getByte_append_left (getByte_at_length bs 49 []))
    rw [skip, hB]
    dsimp only
    rw [if_neg (by norm_num), if_neg (by norm_num), if_pos (by norm_num),
      if_neg (by norm_num)]
  · intro bs ext s h32
    have hQ : (2 : Nat) ^ 32 = 4294967296 := by norm_num
    have hP : (2 : Nat) ^ 64 = 18446744073709551616 := by norm_num
    have heq : writeString ⟨bs, bs.length⟩ s
        = (⟨bs ++ hdrBytes 4 s.length ++ s,
            bs.length + (hdrBytes 4 s.length).length + s.length⟩,
           bs.length) := by
      rw [writeString, firstByteAndU64_eq]
    rw [heq]
    dsimp only
    rw [List.append_assoc]
    exact skip_hdr_len bs s ext 4 (by omega) h32 (by decide)
  · intro bs ext b h32
    have hQ : (2 : Nat) ^ 32 = 4294967296 := by norm_num
    have hP : (2 : Nat) ^ 64 = 18446744073709551616 := by norm_num
    have heq : writeBytes ⟨bs, bs.length⟩ b
        = (⟨bs ++ hdrBytes 5 b.length ++ b,
            bs.length + (hdrBytes 5 b.length).length + b.length⟩,
           bs.length) := by
      rw [writeBytes, firstByteAndU64_eq]
    rw [heq]
    dsimp only
    rw [List.append_assoc]
    exact skip_hdr_len bs b ext 5 (by omega) h32 (by decide)
  · intro bs ext c hc
    rw [writeCstor0, firstByteAndU64_eq]
    dsimp only
    exact skip_hdr_u64 bs ext 10 c hc (by decide)
  · intro bs ext p hlen
    have hP : (2 : Nat) ^ 64 = 18446744073709551616 := by norm_num
    rw [writeRef, firstByteAndU64_eq]
    dsimp only
    exact skip_hdr_u64 bs ext 14 (bs.length - p - 1) (by omega) (by decide)
  · intro bs ext p hlen
    have hP : (2 : Nat) ^ 64 = 18446744073709551616 := by norm_num
    rw [writePointer, firstByteAndU64_eq]
    dsimp only
    exact skip_hdr_u64 bs ext 15 (bs.length - p - 1) (by omega) (by decide)
  · intro bs2 off c hB hc
    rw [skip, hB]
    dsimp only
    have k0 : ¬ c / 16 = 0 := by omega
    have k12 : ¬ (c / 16 = 1 ∨ c / 16 = 2) := by omega
    have k3 : ¬ c / 16 = 3 := by omega
    have k45 : ¬ (c / 16 = 4 ∨ c / 16 = 5) := by omega
    by_cases h678 : c / 16 = 6 ∨ c / 16 = 7 ∨ c / 16 = 8
    · rw [if_neg k0, if_neg k12, if_neg k3, if_neg k45, if_pos h678]
      exact ⟨_, rfl⟩
    · have h1112 : c / 16 = 11 ∨ c / 16 = 12 := by omega
      have k913 : ¬ (c / 16 = 9 ∨ c / 16 = 13) := by omega
      have k10 : ¬ c / 16 = 10 := by omega
      rw [if_neg k0, if_neg k12, if_neg k3, if_neg k45, if_neg h678,
        if_neg k913, if_neg k10, if_pos h1112]
      exact ⟨_, rfl⟩

/-- Witness for C4: skipping the record of `write_string "h"` on a fresh
encoder. -/
theorem C4_skip_correctness_witness :
    ([104] : List Nat).length ≤ 2 ^ 32 - 1 ∧
    skip ((writeString ⟨[], ([] : List Nat).length⟩ [104]).1.w ++ [])
        (writeString ⟨[], ([] : List Nat).length⟩ [104]).2
      = .ok (writeString ⟨[], ([] : List Nat).length⟩ [104]).1.offset := by
  refine ⟨by norm_num, ?_⟩
  exact C4_skip_correctness.2.2.2.2.2.1 [] [] [104] (by norm_num)

end Twine
